import Mathlib

/-!
# Verification of the sandboxed-manifest core of `cargo-outdated`

This file shallowly embeds `src/cargo_ops/temp_project.rs` (the only source
file of the repository) into Lean 4 and proves properties about the embedded
definitions.

Modelling conventions:
* TOML values (`toml::Value`) become the inductive `TomlValue`; a
  `toml::value::Table` becomes an association list `Table := List (String × TomlValue)`
  with get/insert-replacing operations.  Iteration over `dependencies.keys()`
  followed by `get`/`insert` on the map is embedded as a recursion over the
  snapshot of the keys with the same get/insert operations.
* Filesystem paths are plain `String`s; the Rust string/`PathBuf` operations
  used by the source (`&s[n..]` byte slicing, `trim_left_matches`,
  `PathBuf::pop`, `Path::join`, `Path::is_relative`) are embedded as character
  level operations on `String.data` (paths are treated as ASCII, so byte
  indices and character indices agree).
* The filesystem itself (`Path::exists`, `fs::canonicalize`) is an explicit
  environment `FsEnv` passed to the functions that query it; panics
  (`unwrap`, `panic!`-style macro calls) are modelled as the `Except.error`
  branch of the return type, or the dedicated `PanicOr` type where the source
  distinguishes a panic from a returned `CargoResult` error.
-/

namespace CargoOutdated

/-- Embedding of `toml::Value`: a value is a string, a (sub)table, or one of
the other TOML value kinds (integer, float, boolean, datetime, array), which
`temp_project.rs` never inspects beyond "neither a string nor a table". -/
inductive TomlValue where
  | str (s : String)
  | int (n : Int)
  | boolean (b : Bool)
  | arr (elems : List TomlValue)
  | table (entries : List (String × TomlValue))

/-- Embedding of `toml::value::Table` (a map from `String` to `Value`),
represented as an association list with pairwise-distinct keys. -/
abbrev Table := List (String × TomlValue)

/-- Rust `Table::get`: the value stored at key `k`, if any (first matching entry). -/
def tableGet (t : Table) (k : String) : Option TomlValue :=
  match t with
  | [] => none
  | (k₀, v₀) :: rest => if k₀ = k then some v₀ else tableGet rest k

/-- Rust `Table::insert`: replace the value at key `k` in place if the key is
present (a `BTreeMap` insert keeps the entry's position), append otherwise. -/
def tableInsert (t : Table) (k : String) (v : TomlValue) : Table :=
  match t with
  | [] => [(k, v)]
  | (k₀, v₀) :: rest =>
    if k₀ = k then (k, v) :: rest else (k₀, v₀) :: tableInsert rest k v

/-- Rust `Table::contains_key`. -/
def tableContains (t : Table) (k : String) : Bool :=
  (tableGet t k).isSome

/-- Rust `Table::keys` (as the list of keys in entry order). -/
def tableKeys (t : Table) : List String :=
  t.map Prod.fst

theorem tableGet_insert_self (t : Table) (k : String) (v : TomlValue) :
    tableGet (tableInsert t k v) k = some v := by
  induction t with
  | nil => simp [tableInsert, tableGet]
  | cons hd rest ih =>
    obtain ⟨k₀, v₀⟩ := hd
    by_cases h : k₀ = k <;> simp [tableInsert, tableGet, h, ih]

theorem tableGet_insert_ne (t : Table) (k k' : String) (v : TomlValue)
    (h : k ≠ k') : tableGet (tableInsert t k v) k' = tableGet t k' := by
  induction t with
  | nil => simp [tableInsert, tableGet, h]
  | cons hd rest ih =>
    obtain ⟨k₀, v₀⟩ := hd
    by_cases h₀ : k₀ = k
    · subst h₀; simp [tableInsert, tableGet, h]
    · simp only [tableInsert, if_neg h₀, tableGet]
      by_cases h₁ : k₀ = k' <;> simp [h₁, ih]

theorem tableKeys_insert_of_mem (t : Table) (k : String) (v : TomlValue)
    (h : k ∈ tableKeys t) : tableKeys (tableInsert t k v) = tableKeys t := by
  induction t with
  | nil => simp [tableKeys] at h
  | cons hd rest ih =>
    obtain ⟨k₀, v₀⟩ := hd
    by_cases h₀ : k₀ = k
    · subst h₀; simp [tableInsert, tableKeys]
    · simp only [tableKeys, List.map_cons, List.mem_cons] at h
      rcases h with h | h
      · exact absurd h.symm h₀
      · have hrec := ih (by simpa [tableKeys] using h)
        simp only [tableKeys] at hrec
        simp [tableInsert, if_neg h₀, tableKeys, hrec]

theorem tableGet_map (t : Table) (g : String → TomlValue → TomlValue) (k : String) :
    tableGet (t.map (fun e => (e.1, g e.1 e.2))) k =
      (tableGet t k).map (g k) := by
  induction t with
  | nil => simp [tableGet]
  | cons hd rest ih =>
    obtain ⟨k₀, v₀⟩ := hd
    by_cases h : k₀ = k
    · subst h; simp [tableGet]
    · simp [tableGet, h, ih]

theorem tableKeys_cons (n : String) (v : TomlValue) (t : Table) :
    tableKeys ((n, v) :: t) = n :: tableKeys t := rfl

theorem tableKeys_map (t : Table) (g : String → TomlValue → TomlValue) :
    tableKeys (t.map (fun e => (e.1, g e.1 e.2))) = tableKeys t := by
  induction t with
  | nil => rfl
  | cons hd rest ih =>
    obtain ⟨k₀, v₀⟩ := hd
    rw [List.map_cons, tableKeys_cons, ih, tableKeys_cons]

/-!
## The common dependency-table loop shape

Both `replace_version_with_wildcard` and `replace_path_with_absolute` iterate
over a snapshot of the table's keys (`let dep_names: Vec<_> =
dependencies.keys().cloned().collect();`), look the current value up
(`dependencies.get(&name).cloned().unwrap()` — the `unwrap` of a missing key
is a panic, modelled as `Except.error`), decide per entry whether to insert a
replacement value at that key (`dependencies.insert(name, ...)`) or to leave
the entry alone (`continue` / the `_ => {}` arm), and can abort the whole
pass by panicking (modelled as `Except.error`).  `depTableLoop` is that
common shape, parametrised by the per-entry decision `step` (`.ok none` =
leave alone, `.ok (some v)` = insert `v` at the key, `.error` = panic). -/

def depTableLoop (step : String → TomlValue → Except String (Option TomlValue)) :
    List String → Table → Except String Table
  | [], deps => .ok deps
  | name :: rest, deps =>
    match tableGet deps name with
    | none => .error ("missing key " ++ name)
    | some v =>
      match step name v with
      | .error e => .error e
      | .ok none => depTableLoop step rest deps
      | .ok (some v₁) => depTableLoop step rest (tableInsert deps name v₁)

/-- The per-entry effect of one `depTableLoop` iteration, as a transformation
of the whole entry. -/
def applyStepEntry (step : String → TomlValue → Except String (Option TomlValue))
    (p : String × TomlValue) : Except String (String × TomlValue) :=
  match step p.1 p.2 with
  | .error e => .error e
  | .ok none => .ok p
  | .ok (some v₁) => .ok (p.1, v₁)

/-- Sequencing a fallible function over a list, stopping at the first error
(the behaviour of the Rust loops, whose panic aborts the whole pass). -/
def exceptMapList (f : α → Except String β) : List α → Except String (List β)
  | [] => .ok []
  | a :: l =>
    match f a with
    | .error e => .error e
    | .ok b =>
      match exceptMapList f l with
      | .error e => .error e
      | .ok l₁ => .ok (b :: l₁)

theorem depTableLoop_shift (step) (ks : List String) (n : String) (v : TomlValue)
    (t : Table) (hn : n ∉ ks) :
    depTableLoop step ks ((n, v) :: t) =
      Except.map (fun t₁ => (n, v) :: t₁) (depTableLoop step ks t) := by
  induction ks generalizing t with
  | nil => simp [depTableLoop, Except.map]
  | cons k rest ih =>
    have hkn : ¬ n = k := fun h => hn (h ▸ List.mem_cons_self _ _)
    have hn' : n ∉ rest := fun h => hn (List.mem_cons_of_mem _ h)
    have hget₀ : tableGet ((n, v) :: t) k = tableGet t k := by
      simp [tableGet, hkn]
    simp only [depTableLoop, hget₀]
    cases hget : tableGet t k with
    | none => simp [Except.map]
    | some v₀ =>
      cases hstep : step k v₀ with
      | error e => simp [hstep, Except.map]
      | ok o =>
        cases o with
        | none => simp only [hstep]; exact ih t hn'
        | some v₁ =>
          have hins : tableInsert ((n, v) :: t) k v₁ = (n, v) :: tableInsert t k v₁ := by
            simp [tableInsert, hkn]
          simp only [hstep, hins]
          exact ih (tableInsert t k v₁) hn'

theorem depTableLoop_eq_exceptMapList (step) (deps : Table)
    (hnd : (tableKeys deps).Nodup) :
    depTableLoop step (tableKeys deps) deps =
      exceptMapList (applyStepEntry step) deps := by
  induction deps with
  | nil => rfl
  | cons hd t ih =>
    obtain ⟨n, v⟩ := hd
    rw [tableKeys_cons, List.nodup_cons] at hnd
    obtain ⟨hn', hnd'⟩ := hnd
    have hget : tableGet ((n, v) :: t) n = some v := by simp [tableGet]
    rw [tableKeys_cons]
    simp only [depTableLoop, hget, exceptMapList, applyStepEntry]
    cases hstep : step n v with
    | error e => simp [hstep]
    | ok o =>
      cases o with
      | none =>
        simp only [hstep]
        rw [depTableLoop_shift step (tableKeys t) n v t hn', ih hnd']
        cases exceptMapList (applyStepEntry step) t <;> simp [Except.map]
      | some v₁ =>
        have hins : tableInsert ((n, v) :: t) n v₁ = (n, v₁) :: t := by
          simp [tableInsert]
        simp only [hstep, hins]
        rw [depTableLoop_shift step (tableKeys t) n v₁ t hn', ih hnd']
        cases exceptMapList (applyStepEntry step) t <;> simp [Except.map]

theorem exceptMapList_ok_of_forall (f : α → Except String β) (g : α → β)
    (l : List α) (h : ∀ p ∈ l, f p = .ok (g p)) :
    exceptMapList f l = .ok (l.map g) := by
  induction l with
  | nil => rfl
  | cons a l ih =>
    simp only [exceptMapList, h a (List.mem_cons_self _ _),
      ih fun p hp => h p (List.mem_cons_of_mem _ hp), List.map_cons]

theorem exceptMapList_error_iff (f : α → Except String β) (l : List α) :
    (∃ e, exceptMapList f l = .error e) ↔ ∃ p ∈ l, ∃ e, f p = .error e := by
  induction l with
  | nil => simp [exceptMapList]
  | cons a l ih =>
    simp only [exceptMapList]
    cases hfa : f a with
    | error e => simp [hfa]
    | ok b =>
      cases hrest : exceptMapList f l with
      | error e =>
        simp only [List.mem_cons]
        constructor
        · intro _
          obtain ⟨p, hp, he⟩ := ih.mp ⟨e, hrest⟩
          exact ⟨p, Or.inr hp, he⟩
        · intro _; exact ⟨e, rfl⟩
      | ok l₁ =>
        simp only [List.mem_cons]
        constructor
        · rintro ⟨e, he⟩; simp at he
        · rintro ⟨p, hp | hp, e, he⟩
          · subst hp; rw [hfa] at he; simp at he
          · obtain ⟨e', he'⟩ := ih.mpr ⟨p, hp, e, he⟩
            rw [he'] at hrest; simp at hrest

/-!
## `replace_version_with_wildcard` (the "widen to latest" mutation)

`temp_project.rs` lines 265–286: a bare version string is replaced by `"*"`;
a structured table is skipped entirely when it contains a `path` key
(`if t.contains_key("path") { continue; }`), otherwise its `version` key — if
present — is replaced by `"*"`; any other kind of value panics. -/

def widenValueStep (name : String) (v : TomlValue) : Except String (Option TomlValue) :=
  match v with
  | .str _ => .ok (some (.str "*"))
  | .table t =>
    if tableContains t "path" then .ok none
    else
      .ok (some (.table
        (if tableContains t "version" then tableInsert t "version" (.str "*") else t)))
  | _ => .error ("Dependency spec is neither a string nor a table " ++ name)

def replace_version_with_wildcard (deps : Table) : Except String Table :=
  depTableLoop widenValueStep (tableKeys deps) deps

/-- Holds (`true`) exactly on the values the widen mutation accepts without
panicking. -/
def isStringOrTable : TomlValue → Bool
  | .str _ => true
  | .table _ => true
  | _ => false

/-- Pointwise description of what the widen mutation does to one entry
(the amended behaviour: entries whose table carries a `path` key are skipped
entirely). -/
def widenEntrySpec (p : String × TomlValue) : String × TomlValue :=
  match p.2 with
  | .str _ => (p.1, .str "*")
  | .table t =>
    if tableContains t "path" then p
    else (p.1, .table
      (if tableContains t "version" then tableInsert t "version" (.str "*") else t))
  | _ => p

theorem widen_pointwise (deps : Table) (hnd : (tableKeys deps).Nodup)
    (hok : ∀ p ∈ deps, isStringOrTable p.2 = true) :
    replace_version_with_wildcard deps = .ok (deps.map widenEntrySpec) := by
  rw [replace_version_with_wildcard, depTableLoop_eq_exceptMapList _ _ hnd]
  apply exceptMapList_ok_of_forall
  intro p hp
  have := hok p hp
  obtain ⟨n, v⟩ := p
  cases v with
  | str s => rfl
  | table t =>
    simp only [applyStepEntry, widenValueStep, widenEntrySpec]
    by_cases hpath : tableContains t "path" <;> simp [hpath]
  | int m => simp [isStringOrTable] at this
  | boolean b => simp [isStringOrTable] at this
  | arr es => simp [isStringOrTable] at this

theorem tableGet_of_mem_nodup (t : Table) (n : String) (v : TomlValue)
    (hmem : (n, v) ∈ t) (hnd : (tableKeys t).Nodup) : tableGet t n = some v := by
  induction t with
  | nil => cases hmem
  | cons hd rest ih =>
    obtain ⟨k₀, v₀⟩ := hd
    rw [tableKeys_cons, List.nodup_cons] at hnd
    rcases List.mem_cons.mp hmem with h | h
    · injection h with h₁ h₂
      subst h₁; subst h₂
      simp [tableGet]
    · have hne : k₀ ≠ n := by
        intro hkn
        subst hkn
        exact hnd.1 (by simpa [tableKeys] using List.mem_map_of_mem Prod.fst h)
      simp only [tableGet, if_neg hne]
      exact ih h hnd.2

/-!
## Path strings

`temp_project.rs` manipulates paths through `String`/`PathBuf` operations:
byte slicing `&s[n..]`, `trim_left_matches(&['/', '\\'])`, `PathBuf::pop`,
`PathBuf::push` / `Path::join`, `Path::is_relative`, `Path::exists` and
`fs::canonicalize`.  Paths are embedded as `String`s (treated as ASCII, so
the byte index of a Rust slice agrees with the character index), the pure
operations are defined below character by character, and the two filesystem
queries become an explicit environment `FsEnv`. -/

/-- Rust byte slicing `&s[n..]`. -/
def strSlice (s : String) (n : Nat) : String :=
  ⟨s.data.drop n⟩

/-- Rust `str::trim_left_matches` with the delimiter set `['/', '\\']`
(used on the manifest path relative to the sandbox root). -/
def trimLeftDelims (s : String) : String :=
  ⟨s.data.dropWhile (fun c => c == '/' || c == '\\')⟩

/-- Rust `Path::is_absolute` (Unix flavour: the path starts with a separator). -/
def isAbsolutePath (s : String) : Bool :=
  match s.data with
  | [] => false
  | c :: _ => c == '/'

/-- Rust `Path::is_relative`. -/
def isRelativePath (s : String) : Bool :=
  !isAbsolutePath s

/-- Rust `PathBuf::pop`: remove the last path component (every path popped by the
source has a final file-name component, which is the case this models). -/
def popPath (s : String) : String :=
  ⟨(((s.data.reverse).dropWhile (fun c => c != '/')).drop 1).reverse⟩

/-- Rust `Path::join` (and `PathBuf::push`): joining an absolute path replaces the
receiver; joining a relative one appends it after a separator (no separator
is doubled when the receiver already ends in one). -/
def pathJoin (s q : String) : String :=
  if isAbsolutePath q then q
  else if s.data = [] then q
  else if s.data.getLast? = some '/' then s ++ q
  else s ++ "/" ++ q

/-- Splitting a character list at a separator character (the list of path
components, empty components included). -/
def splitChar (c : Char) : List Char → List (List Char)
  | [] => [[]]
  | x :: xs =>
    match splitChar c xs with
    | [] => [[x]]
    | h :: t => if x == c then [] :: h :: t else (x :: h) :: t

/-- Interleaving a separator between components (inverse of `splitChar`). -/
def joinSep (c : Char) : List (List Char) → List Char
  | [] => []
  | [x] => x
  | x :: y :: xs => x ++ c :: joinSep c (y :: xs)

/-- The non-empty `/`-separated components of a path string: the sequence of
directory/file names, insensitive to doubled or trailing separators.  Two
strings denote the same relative path exactly when their components agree. -/
def strComponents (s : String) : List (List Char) :=
  (splitChar '/' s.data).filter (fun p => !p.isEmpty)

/-- The filesystem environment consumed by `replace_path_with_absolute`:
`Path::exists` and `fs::canonicalize` (`none` models the `Err` case whose
`unwrap` panics). -/
structure FsEnv where
  fsExists : String → Bool
  canon : String → Option String

/-- The `relative` variable of `replace_path_with_absolute` (lines 302–310):
the manifest's directory relative to the sandbox root, joined with the
dependency's relative path. -/
def rpwaRelative (tmpRoot tmpManifest origPath : String) : String :=
  pathJoin (popPath (trimLeftDelims (strSlice tmpManifest tmpRoot.length))) origPath

/-- The location probed inside the sandbox (line 311):
`tmp_root.join(&relative).join("Cargo.toml")`. -/
def rpwaCheckPath (tmpRoot rel : String) : String :=
  pathJoin (pathJoin tmpRoot rel) "Cargo.toml"

/-- Per-entry decision of `replace_path_with_absolute` (lines 297–328): only
structured tables with a string-valued relative `path` are considered; if the
relocated relative path does not hold a `Cargo.toml` inside the sandbox, the
`path` value is replaced by the canonicalized resolution against the original
workspace root (`fs::canonicalize(orig_root.join(relative)).unwrap()` — the
`unwrap` of a failed canonicalization is a panic, modelled as `.error`). -/
def rpwaValueStep (env : FsEnv) (origRoot tmpRoot tmpManifest : String)
    (v : TomlValue) : Except String (Option TomlValue) :=
  match v with
  | .table t =>
    if tableContains t "path" then
      match tableGet t "path" with
      | some (.str origPath) =>
        if isRelativePath origPath then
          if env.fsExists (rpwaCheckPath tmpRoot (rpwaRelative tmpRoot tmpManifest origPath)) then
            .ok none
          else
            match env.canon (pathJoin origRoot (rpwaRelative tmpRoot tmpManifest origPath)) with
            | some canonPath => .ok (some (.table (tableInsert t "path" (.str canonPath))))
            | none => .error "canonicalize failed"
        else .ok none
      | _ => .ok none
    else .ok none
  | _ => .ok none

/-- Source function `replace_path_with_absolute` (lines 288–330): the dependency-table loop
with the per-entry decision above. -/
def replace_path_with_absolute (env : FsEnv) (deps : Table)
    (origRoot tmpRoot tmpManifest : String) : Except String Table :=
  depTableLoop (fun _ v => rpwaValueStep env origRoot tmpRoot tmpManifest v)
    (tableKeys deps) deps

/-- The pure per-value effect of `replace_path_with_absolute` on entries that
do not panic. -/
def rpwaValueSpec (env : FsEnv) (origRoot tmpRoot tmpManifest : String)
    (v : TomlValue) : TomlValue :=
  match rpwaValueStep env origRoot tmpRoot tmpManifest v with
  | .ok (some v₁) => v₁
  | _ => v

theorem tableGet_map_value (t : Table) (g : TomlValue → TomlValue) (k : String) :
    tableGet (t.map (fun e => (e.1, g e.2))) k = (tableGet t k).map g := by
  induction t with
  | nil => simp [tableGet]
  | cons hd rest ih =>
    obtain ⟨k₀, v₀⟩ := hd
    by_cases h : k₀ = k
    · subst h; simp [tableGet]
    · simp [tableGet, h, ih]

theorem tableKeys_map_value (t : Table) (g : TomlValue → TomlValue) :
    tableKeys (t.map (fun e => (e.1, g e.2))) = tableKeys t := by
  induction t with
  | nil => rfl
  | cons hd rest ih =>
    obtain ⟨k₀, v₀⟩ := hd
    rw [List.map_cons, tableKeys_cons, ih, tableKeys_cons]

theorem rpwa_no_error_of_ok (env : FsEnv) (origRoot tmpRoot tmpManifest : String)
    (deps d₁ : Table) (hnd : (tableKeys deps).Nodup)
    (hrun : replace_path_with_absolute env deps origRoot tmpRoot tmpManifest = .ok d₁) :
    ∀ p ∈ deps, ∀ e, rpwaValueStep env origRoot tmpRoot tmpManifest p.2 ≠ .error e := by
  intro p hp e he
  rw [replace_path_with_absolute, depTableLoop_eq_exceptMapList _ _ hnd] at hrun
  have herr : ∃ e₁, exceptMapList
      (applyStepEntry fun _ v => rpwaValueStep env origRoot tmpRoot tmpManifest v) deps =
        .error e₁ := by
    apply (exceptMapList_error_iff _ _).mpr
    exact ⟨p, hp, e, by simp [applyStepEntry, he]⟩
  obtain ⟨e₁, he₁⟩ := herr
  rw [he₁] at hrun
  cases hrun

theorem rpwa_pointwise (env : FsEnv) (origRoot tmpRoot tmpManifest : String)
    (deps d₁ : Table) (hnd : (tableKeys deps).Nodup)
    (hrun : replace_path_with_absolute env deps origRoot tmpRoot tmpManifest = .ok d₁) :
    d₁ = deps.map (fun e => (e.1, rpwaValueSpec env origRoot tmpRoot tmpManifest e.2)) := by
  have hne := rpwa_no_error_of_ok env origRoot tmpRoot tmpManifest deps d₁ hnd hrun
  rw [replace_path_with_absolute, depTableLoop_eq_exceptMapList _ _ hnd,
    exceptMapList_ok_of_forall _
      (fun e => (e.1, rpwaValueSpec env origRoot tmpRoot tmpManifest e.2)) deps ?_] at hrun
  · injection hrun with h; exact h.symm
  · intro p hp
    simp only [applyStepEntry, rpwaValueSpec]
    cases hstep : rpwaValueStep env origRoot tmpRoot tmpManifest p.2 with
    | error e => exact absurd hstep (hne p hp e)
    | ok o => cases o with
      | none => rfl
      | some v₁ => rfl

theorem rpwaValueStep_error_iff (env : FsEnv) (origRoot tmpRoot tmpManifest : String)
    (v : TomlValue) :
    (∃ e, rpwaValueStep env origRoot tmpRoot tmpManifest v = .error e) ↔
      ∃ t pstr, v = TomlValue.table t ∧
        tableGet t "path" = some (TomlValue.str pstr) ∧
        isRelativePath pstr = true ∧
        env.fsExists (rpwaCheckPath tmpRoot (rpwaRelative tmpRoot tmpManifest pstr)) = false ∧
        env.canon (pathJoin origRoot (rpwaRelative tmpRoot tmpManifest pstr)) = none := by
  constructor
  · rintro ⟨e, he⟩
    cases v with
    | table t =>
      by_cases hc : tableContains t "path"
      · rcases hget : tableGet t "path" with _ | pv
        · rw [tableContains, hget] at hc; simp at hc
        · cases pv with
          | str pstr =>
            rcases hrel : isRelativePath pstr with _ | _
            · simp [rpwaValueStep, hc, hget, hrel] at he
            · rcases hex : env.fsExists
                (rpwaCheckPath tmpRoot (rpwaRelative tmpRoot tmpManifest pstr)) with _ | _
              · rcases hcanon : env.canon
                  (pathJoin origRoot (rpwaRelative tmpRoot tmpManifest pstr)) with _ | c
                · exact ⟨t, pstr, rfl, hget, hrel, hex, hcanon⟩
                · simp [rpwaValueStep, hc, hget, hrel, hex, hcanon] at he
              · simp [rpwaValueStep, hc, hget, hrel, hex] at he
          | int n => simp [rpwaValueStep, hc, hget] at he
          | boolean b => simp [rpwaValueStep, hc, hget] at he
          | arr es => simp [rpwaValueStep, hc, hget] at he
          | table t₁ => simp [rpwaValueStep, hc, hget] at he
      · simp [rpwaValueStep, hc] at he
    | str s => simp [rpwaValueStep] at he
    | int n => simp [rpwaValueStep] at he
    | boolean b => simp [rpwaValueStep] at he
    | arr es => simp [rpwaValueStep] at he
  · rintro ⟨t, pstr, rfl, hget, hrel, hex, hcanon⟩
    have hc : tableContains t "path" = true := by rw [tableContains, hget]; rfl
    exact ⟨"canonicalize failed", by simp [rpwaValueStep, hc, hget, hrel, hex, hcanon]⟩

theorem rpwaValueStep_idem (env : FsEnv) (origRoot tmpRoot tmpManifest : String)
    (habs : ∀ s c, env.canon s = some c → isAbsolutePath c = true) (v : TomlValue)
    (hok : ∀ e, rpwaValueStep env origRoot tmpRoot tmpManifest v ≠ .error e) :
    rpwaValueStep env origRoot tmpRoot tmpManifest
      (rpwaValueSpec env origRoot tmpRoot tmpManifest v) = .ok none := by
  cases v with
  | table t =>
    by_cases hc : tableContains t "path"
    · rcases hget : tableGet t "path" with _ | pv
      · rw [tableContains, hget] at hc; simp at hc
      · cases pv with
        | str pstr =>
          rcases hrel : isRelativePath pstr with _ | _
          · simp [rpwaValueSpec, rpwaValueStep, hc, hget, hrel]
          · rcases hex : env.fsExists
              (rpwaCheckPath tmpRoot (rpwaRelative tmpRoot tmpManifest pstr)) with _ | _
            · rcases hcanon : env.canon
                (pathJoin origRoot (rpwaRelative tmpRoot tmpManifest pstr)) with _ | c
              · exact absurd (by simp [rpwaValueStep, hc, hget, hrel, hex, hcanon])
                  (hok "canonicalize failed")
              · have hc₁ : tableContains (tableInsert t "path" (TomlValue.str c)) "path" = true := by
                  rw [tableContains, tableGet_insert_self]; rfl
                have hrel₁ : isRelativePath c = false := by
                  rw [isRelativePath, habs _ _ hcanon]; rfl
                simp [rpwaValueSpec, rpwaValueStep, hc, hget, hrel, hex, hcanon, hc₁,
                  tableGet_insert_self, hrel₁]
            · simp [rpwaValueSpec, rpwaValueStep, hc, hget, hrel, hex]
        | int n => simp [rpwaValueSpec, rpwaValueStep, hc, hget]
        | boolean b => simp [rpwaValueSpec, rpwaValueStep, hc, hget]
        | arr es => simp [rpwaValueSpec, rpwaValueStep, hc, hget]
        | table t₁ => simp [rpwaValueSpec, rpwaValueStep, hc, hget]
    · simp [rpwaValueSpec, rpwaValueStep, hc]
  | str s => simp [rpwaValueSpec, rpwaValueStep]
  | int n => simp [rpwaValueSpec, rpwaValueStep]
  | boolean b => simp [rpwaValueSpec, rpwaValueStep]
  | arr es => simp [rpwaValueSpec, rpwaValueStep]

/-!
## Manifests and `manipulate_dependencies`

The `Manifest` struct itself lives in `super::{Manifest}` (cargo_ops/mod.rs),
outside the shown source.  Modelled from the spec: the spec's
`ManifestDocument` — package metadata, optional binary-target list, optional
library-target descriptor, the three dependency tables and the per-platform
`target` table — matching exactly the fields `temp_project.rs` accesses
(`manifest.dependencies/dev_dependencies/build_dependencies/target/bin/lib`). -/

structure Manifest where
  package : Table
  bin : Option (List Table)
  lib : Option Table
  dependencies : Option Table
  dev_dependencies : Option Table
  build_dependencies : Option Table
  target : Option Table

/-- The three recognized dependency-table keys inside a platform-target
block (line 170 of the source). -/
def depTableKinds : List String :=
  ["dependencies", "dev-dependencies", "build-dependencies"]

/-- The inner loop of `manipulate_dependencies` over one platform-target
block: for each recognized key whose value is a table, replace it by the
transformed table (`target.get_mut(..)` followed by in-place mutation). -/
def applyDepTables (f : Table → Table) (keys : List String) (block : Table) : Table :=
  match keys with
  | [] => block
  | key :: rest =>
    match tableGet block key with
    | some (.table dt) => applyDepTables f rest (tableInsert block key (.table (f dt)))
    | _ => applyDepTables f rest block

/-- The per-value effect on one entry of the `target` table: a table-valued
platform block gets its dependency tables transformed (`if let
Value::Table(ref mut target) = *target`), any other value is untouched. -/
def targetBlockMap (f : Table → Table) (v : TomlValue) : TomlValue :=
  match v with
  | TomlValue.table tgt => TomlValue.table (applyDepTables f depTableKinds tgt)
  | v => v

/-- Source function `manipulate_dependencies` (lines 160–180): apply `f` to the normal, dev
and build dependency tables when present, and to each platform-target
block's recognized dependency tables; everything else is untouched. -/
def manipulate_dependencies (f : Table → Table) (m : Manifest) : Manifest :=
  { m with
    dependencies := m.dependencies.map f
    dev_dependencies := m.dev_dependencies.map f
    build_dependencies := m.build_dependencies.map f
    target := m.target.map (fun t =>
      t.map (fun e => (e.1, targetBlockMap f e.2))) }

/-- Fallible variant of the target-block loop (the mutation functions panic,
which the embedding surfaces as `Except.error`). -/
def applyDepTablesE (f : Table → Except String Table) (keys : List String)
    (block : Table) : Except String Table :=
  match keys with
  | [] => .ok block
  | key :: rest =>
    match tableGet block key with
    | some (.table dt) =>
      match f dt with
      | .error e => .error e
      | .ok dt₁ => applyDepTablesE f rest (tableInsert block key (.table dt₁))
    | _ => applyDepTablesE f rest block

/-- Fallible lift over an optional table. -/
def optionTableE (f : Table → Except String Table) :
    Option Table → Except String (Option Table)
  | none => .ok none
  | some t => (f t).map some

/-- Fallible `manipulate_dependencies`, with the same traversal order as the
source (normal, dev, build, then each target block). -/
def manipulate_dependenciesE (f : Table → Except String Table) (m : Manifest) :
    Except String Manifest := do
  let deps ← optionTableE f m.dependencies
  let devDeps ← optionTableE f m.dev_dependencies
  let buildDeps ← optionTableE f m.build_dependencies
  let target ←
    match m.target with
    | none => pure none
    | some t =>
      (exceptMapList (fun e =>
        match e.2 with
        | TomlValue.table tgt =>
          (applyDepTablesE f depTableKinds tgt).map
            (fun tgt₁ => (e.1, TomlValue.table tgt₁))
        | v => .ok (e.1, v)) t).map some
  .ok { m with
        dependencies := deps
        dev_dependencies := devDeps
        build_dependencies := buildDeps
        target := target }

/-!
## The two per-manifest mutation passes

`write_manifest_semver_with_paths` (lines 194–229) and
`write_manifest_latest` (lines 232–263) both: parse a manifest from disk,
overwrite `bin` with the synthetic stub target, inject `path` into `lib` if
present, run a dependency mutation through `manipulate_dependencies`, and
serialize the result back to the same path.  The disk is modelled as a map
from path to parsed manifest (`Disk`); parsing and serialization are
inverse, so a file's content is stored as the `Manifest` itself. -/

/-- The synthetic `[[bin]]` stub (lines 199–204 and 233–238):
`{ name = "test", path = "test.rs" }`. -/
def stubBin : Table :=
  [("name", TomlValue.str "test"), ("path", TomlValue.str "test.rs")]

/-- The stub-target injection common to both passes: `manifest.bin` is
overwritten with the single stub entry and, when a `lib` block is declared,
its `path` is set to `"test_lib.rs"`. -/
def applyStubTargets (m : Manifest) : Manifest :=
  { m with
    bin := some [stubBin]
    lib := m.lib.map (fun lib => tableInsert lib "path" (TomlValue.str "test_lib.rs")) }

/-- The in-memory transformation the semver pass applies to one manifest
file at `manifestPath`. -/
def semverManifestTransform (env : FsEnv) (origRoot tmpRoot manifestPath : String)
    (m : Manifest) : Except String Manifest :=
  manipulate_dependenciesE
    (fun deps => replace_path_with_absolute env deps origRoot tmpRoot manifestPath)
    (applyStubTargets m)

/-- The in-memory transformation the latest (widen) pass applies to one
manifest file. -/
def latestManifestTransform (m : Manifest) : Except String Manifest :=
  manipulate_dependenciesE
    (fun deps => replace_version_with_wildcard deps)
    (applyStubTargets m)

/-- The sandbox filesystem, restricted to manifest files: path ↦ parsed
content. -/
def Disk : Type := String → Option Manifest

/-- Writing one manifest file. -/
def diskWrite (d : Disk) (p : String) (m : Manifest) : Disk :=
  fun q => if q = p then some m else d q

/-- The shared loop of both passes: for each path in order, open the file
(`File::open`, failing if absent), transform the parsed manifest, and write
the result back to the same path. -/
def rewriteManifestFiles (g : String → Manifest → Except String Manifest) :
    List String → Disk → Except String Disk
  | [], d => .ok d
  | p :: ps, d =>
    match d p with
    | none => .error ("failed to open " ++ p)
    | some m =>
      match g p m with
      | .error e => .error e
      | .ok m₁ => rewriteManifestFiles g ps (diskWrite d p m₁)

/-- Source function `write_manifest_semver_with_paths` (lines 194–229), disk level. -/
def write_manifest_semver_with_paths (env : FsEnv) (manifestPaths : List String)
    (origRoot tmpRoot : String) (d : Disk) : Except String Disk :=
  rewriteManifestFiles
    (fun p m => semverManifestTransform env origRoot tmpRoot p m) manifestPaths d

/-- The manifest-rewriting loop of `write_manifest_latest` (lines 239–253),
disk level. -/
def write_manifest_latest_disk (manifestPaths : List String) (d : Disk) :
    Except String Disk :=
  rewriteManifestFiles (fun _ m => latestManifestTransform m) manifestPaths d

/-!
## `from_workspace` and the `TempProject` state

Modelled from the source (lines 29–108) at the granularity the claims need:
the copying of each manifest to its mirrored destination, the semver
(path-absolutizing) rewrite of the copies, and the resulting `TempProject`
state with its empty workspace slot.  The `Cargo.lock` byte-copies, the
virtual-root copy and `generate_config` touch no manifest content and are
not modelled. -/

/-- The destination computed for one source manifest (lines 49–60):
`format!("{}/{}", temp_dir, &from_dir[workspace_root.len()..])` followed by
`dest.push("Cargo.toml")`. -/
def destPath (tmpRoot wsRoot fromPath : String) : String :=
  pathJoin (tmpRoot ++ "/" ++ strSlice (popPath fromPath) wsRoot.length) "Cargo.toml"

/-- The copy loop of `from_workspace` (lines 47–69): copy every source
manifest to its mirrored destination in the sandbox, collecting the
destination paths (`tmp_manifest_paths`) in order. -/
def copyManifests (origDisk : Disk) (tmpRoot wsRoot : String) :
    List String → Disk → Except String (List String × Disk)
  | [], d => .ok ([], d)
  | p :: ps, d =>
    match origDisk p with
    | none => .error ("failed to copy " ++ p)
    | some m =>
      match copyManifests origDisk tmpRoot wsRoot ps
          (diskWrite d (destPath tmpRoot wsRoot p) m) with
      | .error e => .error e
      | .ok (paths, d₁) => .ok (destPath tmpRoot wsRoot p :: paths, d₁)

/-- An open `cargo::core::Workspace`, identified by the root manifest it was
opened from. -/
structure WorkspaceHandle where
  rootManifest : String

/-- The external cargo operations consumed by `TempProject`:
`Workspace::new` and `ops::update_lockfile`. -/
structure CargoEnv where
  workspaceNew : String → Except String WorkspaceHandle
  updateLockfile : WorkspaceHandle → Except String Unit

/-- The `TempProject` struct (lines 21–27): the shared single-slot workspace
handle (`Rc<RefCell<Option<Workspace>>>`), the sandbox root, the sandbox
manifest paths and the root manifest's workspace-relative path. -/
structure TempProjectM where
  workspace : Option WorkspaceHandle
  tempDirPath : String
  manifest_paths : List String
  relative_manifest : String

/-- Source method `TempProject::from_workspace` (lines 31–108), disk level: copy the
manifests, run the semver (stub + path-absolutization) pass over the copies
and write them back, and return the project state — whose workspace slot
starts out empty (`Rc::new(RefCell::new(None))`). -/
def from_workspace (env : FsEnv) (origDisk : Disk) (origManifestPaths : List String)
    (wsRoot tmpRoot origManifest : String) : Except String (TempProjectM × Disk) :=
  match copyManifests origDisk tmpRoot wsRoot origManifestPaths (fun _ => none) with
  | .error e => .error e
  | .ok (tmpPaths, d₁) =>
    match write_manifest_semver_with_paths env tmpPaths wsRoot tmpRoot d₁ with
    | .error e => .error e
    | .ok d₂ =>
      .ok ({ workspace := none
             tempDirPath := tmpRoot
             manifest_paths := tmpPaths
             relative_manifest := strSlice origManifest wsRoot.length }, d₂)

/-- Source method `TempProject::write_manifest_semver` (lines 183–192): open a fresh
`Workspace` on the sandbox root manifest and store it in the slot. -/
def write_manifest_semver (cenv : CargoEnv) (tp : TempProjectM) :
    Except String TempProjectM :=
  match cenv.workspaceNew (tp.tempDirPath ++ "/" ++ tp.relative_manifest) with
  | .error e => .error e
  | .ok ws => .ok { tp with workspace := some ws }

/-- Source method `TempProject::write_manifest_latest` (lines 232–263): rewrite every
sandbox manifest with the widen mutation (reading the files back from disk),
then open a fresh `Workspace` and store it in the slot. -/
def write_manifest_latest (cenv : CargoEnv) (tp : TempProjectM) (d : Disk) :
    Except String (TempProjectM × Disk) :=
  match write_manifest_latest_disk tp.manifest_paths d with
  | .error e => .error e
  | .ok d₁ =>
    match cenv.workspaceNew (tp.tempDirPath ++ "/" ++ tp.relative_manifest) with
    | .error e => .error e
    | .ok ws => .ok ({ tp with workspace := some ws }, d₁)

/-- A computation that can end in a panic (distinct from returning a
`CargoResult` error). -/
inductive PanicOr (α : Type) where
  | panic (msg : String)
  | value (a : α)

/-- Source method `TempProject::cargo_update` (lines 142–151):
`update_lockfile(self.workspace.borrow().as_ref().unwrap(), ..)` — the
`unwrap` of an empty slot is a panic, not a returned error. -/
def cargo_update (cenv : CargoEnv) (tp : TempProjectM) : PanicOr (Except String Unit) :=
  match tp.workspace with
  | none => .panic "called `Option::unwrap()` on a `None` value"
  | some ws => .value (cenv.updateLockfile ws)

/-!
## `manifest_paths` (GraphWalker, lines 334–377)

The source traverses the resolved dependency graph depth-first from each
workspace member, with a `HashSet<PackageId>` of visited identities, pushing
`pkg.manifest_path()` whenever `pkg.root().to_string_lossy()` starts with the
workspace root string.  The embedding collects the visited package ids in
push order and maps `pkgManifestPath` over them at the end, which produces
the same list as pushing the path at visit time.  The unbounded Rust
recursion is embedded with a fuel parameter that only bounds the recursion
depth: exhausted fuel is an `Except.error`, and every property below is
stated about runs that return `.ok`.  `elab.pkgs[pkg_id]` on a missing id is
a panic in Rust ("inconsistent graph"), modelled as `.error` as well. -/

abbrev PackageId := Nat

/-- The inputs of the walker: the `ElaborateWorkspace`'s package-metadata
map (with domain `ids`), the workspace root string, the member ids, and the
per-package root, manifest path and direct-dependency ids. -/
structure ElabWorkspace where
  ids : List PackageId
  root : String
  members : List PackageId
  pkgRoot : PackageId → String
  pkgManifestPath : PackageId → String
  pkgDeps : PackageId → List PackageId

/-- Rust `str::starts_with` (the test `pkg_path.starts_with(workspace_path)`
on line 351), computed on the character lists. -/
def strStartsWith (s pre : String) : Bool :=
  pre.data.isPrefixOf s.data

/-- The walker's mutable state: the visited set and the collected package
ids (the source pushes `pkg.manifest_path()`; the id list is kept instead
and mapped at the end). -/
structure WalkState where
  visited : List PackageId
  collected : List PackageId

/-- One visit (lines 348–353): mark the id visited and collect it when its
package root string starts with the workspace root string. -/
def visitState (ew : ElabWorkspace) (pid : PackageId) (st : WalkState) : WalkState :=
  { visited := pid :: st.visited
    collected :=
      if strStartsWith (ew.pkgRoot pid) ew.root then st.collected ++ [pid]
      else st.collected }

/-- The recursive walk (lines 338–360 and the member loop 365–374), as a
single list-driven recursion: processing `pid :: rest` first handles `pid`
(skip if visited, fail if unknown, otherwise visit it and walk its direct
dependencies) and then the remaining worklist. -/
def walkList (ew : ElabWorkspace) : Nat → List PackageId → WalkState → Except String WalkState
  | 0, _, _ => .error "recursion limit exhausted"
  | _ + 1, [], st => .ok st
  | fuel + 1, pid :: rest, st =>
    if pid ∈ st.visited then walkList ew fuel rest st
    else if pid ∈ ew.ids then
      match walkList ew fuel (ew.pkgDeps pid) (visitState ew pid st) with
      | .error e => .error e
      | .ok st₁ => walkList ew fuel rest st₁
    else .error "package id not found in workspace metadata"

/-- Source function `manifest_paths` (lines 334–377). -/
def manifest_paths (ew : ElabWorkspace) (fuel : Nat) : Except String (List String) :=
  match walkList ew fuel ew.members { visited := [], collected := [] } with
  | .error e => .error e
  | .ok st => .ok (st.collected.map ew.pkgManifestPath)

/-- One dependency edge of the resolved graph. -/
def DepEdge (ew : ElabWorkspace) (a b : PackageId) : Prop :=
  b ∈ ew.pkgDeps a

/-- Graph reachability along dependency edges. -/
def Reaches (ew : ElabWorkspace) : PackageId → PackageId → Prop :=
  Relation.ReflTransGen (DepEdge ew)

/-- The walk invariant: no duplicate visits, and the collected ids are
exactly the visited ids whose package root starts with the workspace root. -/
def WalkInv (ew : ElabWorkspace) (st : WalkState) : Prop :=
  st.visited.Nodup ∧ st.collected.Nodup ∧
    ∀ x, x ∈ st.collected ↔
      (x ∈ st.visited ∧ strStartsWith (ew.pkgRoot x) ew.root = true)

theorem walkList_mono (ew : ElabWorkspace) :
    ∀ fuel ps st st₁, walkList ew fuel ps st = .ok st₁ →
      ∀ x ∈ st.visited, x ∈ st₁.visited := by
  intro fuel
  induction fuel with
  | zero => intro ps st st₁ h; simp [walkList] at h
  | succ fuel ih =>
    intro ps st st₁ h
    match ps with
    | [] =>
      simp only [walkList] at h
      injection h with h
      subst h
      exact fun x hx => hx
    | pid :: rest =>
      simp only [walkList] at h
      by_cases hv : pid ∈ st.visited
      · rw [if_pos hv] at h
        exact ih rest st st₁ h
      · rw [if_neg hv] at h
        by_cases hid : pid ∈ ew.ids
        · rw [if_pos hid] at h
          cases hrec : walkList ew fuel (ew.pkgDeps pid) (visitState ew pid st) with
          | error e => rw [hrec] at h; cases h
          | ok st₂ =>
            rw [hrec] at h
            intro x hx
            exact ih rest st₂ st₁ h x
              (ih (ew.pkgDeps pid) (visitState ew pid st) st₂ hrec x
                (List.mem_cons_of_mem _ hx))
        · rw [if_neg hid] at h; cases h

theorem walkList_inv (ew : ElabWorkspace) :
    ∀ fuel ps st st₁, walkList ew fuel ps st = .ok st₁ →
      WalkInv ew st → WalkInv ew st₁ := by
  intro fuel
  induction fuel with
  | zero => intro ps st st₁ h; simp [walkList] at h
  | succ fuel ih =>
    intro ps st st₁ h hinv
    match ps with
    | [] =>
      simp only [walkList] at h
      injection h with h
      subst h
      exact hinv
    | pid :: rest =>
      simp only [walkList] at h
      by_cases hv : pid ∈ st.visited
      · rw [if_pos hv] at h
        exact ih rest st st₁ h hinv
      · rw [if_neg hv] at h
        by_cases hid : pid ∈ ew.ids
        · rw [if_pos hid] at h
          cases hrec : walkList ew fuel (ew.pkgDeps pid) (visitState ew pid st) with
          | error e => rw [hrec] at h; cases h
          | ok st₂ =>
            rw [hrec] at h
            refine ih rest st₂ st₁ h (ih (ew.pkgDeps pid) _ st₂ hrec ?_)
            obtain ⟨hvn, hcn, hiff⟩ := hinv
            have hpc : pid ∉ st.collected := fun hc => hv ((hiff pid).mp hc).1
            constructor
            · exact List.nodup_cons.mpr ⟨hv, hvn⟩
            constructor
            · simp only [visitState]
              by_cases hP : strStartsWith (ew.pkgRoot pid) ew.root
              · rw [if_pos hP]
                exact List.Nodup.append hcn (List.nodup_singleton pid)
                  (by simpa using hpc)
              · rw [if_neg hP]; exact hcn
            · intro x
              simp only [visitState]
              by_cases hP : strStartsWith (ew.pkgRoot pid) ew.root
              · rw [if_pos hP]
                simp only [List.mem_append, List.mem_cons, List.not_mem_nil, or_false]
                constructor
                · rintro (hx | rfl)
                  · obtain ⟨h₁, h₂⟩ := (hiff x).mp hx
                    exact ⟨Or.inr h₁, h₂⟩
                  · exact ⟨Or.inl rfl, hP⟩
                · rintro ⟨rfl | hx, h₂⟩
                  · exact Or.inr rfl
                  · exact Or.inl ((hiff x).mpr ⟨hx, h₂⟩)
              · rw [if_neg hP]
                simp only [List.mem_cons]
                constructor
                · intro hx
                  obtain ⟨h₁, h₂⟩ := (hiff x).mp hx
                  exact ⟨Or.inr h₁, h₂⟩
                · rintro ⟨rfl | hx, h₂⟩
                  · exact absurd h₂ (by simpa using hP)
                  · exact (hiff x).mpr ⟨hx, h₂⟩
        · rw [if_neg hid] at h; cases h

theorem walkList_sound (ew : ElabWorkspace) :
    ∀ fuel ps st st₁, walkList ew fuel ps st = .ok st₁ →
      ∀ x ∈ st₁.visited, x ∈ st.visited ∨ ∃ p ∈ ps, Reaches ew p x := by
  intro fuel
  induction fuel with
  | zero => intro ps st st₁ h; simp [walkList] at h
  | succ fuel ih =>
    intro ps st st₁ h
    match ps with
    | [] =>
      simp only [walkList] at h
      injection h with h
      subst h
      exact fun x hx => Or.inl hx
    | pid :: rest =>
      simp only [walkList] at h
      by_cases hv : pid ∈ st.visited
      · rw [if_pos hv] at h
        intro x hx
        rcases ih rest st st₁ h x hx with h₁ | ⟨p, hp, hr⟩
        · exact Or.inl h₁
        · exact Or.inr ⟨p, List.mem_cons_of_mem _ hp, hr⟩
      · rw [if_neg hv] at h
        by_cases hid : pid ∈ ew.ids
        · rw [if_pos hid] at h
          cases hrec : walkList ew fuel (ew.pkgDeps pid) (visitState ew pid st) with
          | error e => rw [hrec] at h; cases h
          | ok st₂ =>
            rw [hrec] at h
            intro x hx
            rcases ih rest st₂ st₁ h x hx with h₁ | ⟨p, hp, hr⟩
            · rcases ih (ew.pkgDeps pid) _ st₂ hrec x h₁ with h₂ | ⟨d, hd, hr⟩
              · rcases List.mem_cons.mp h₂ with rfl | h₃
                · exact Or.inr ⟨x, List.mem_cons_self _ _, Relation.ReflTransGen.refl⟩
                · exact Or.inl h₃
              · exact Or.inr ⟨pid, List.mem_cons_self _ _,
                  Relation.ReflTransGen.head hd hr⟩
            · exact Or.inr ⟨p, List.mem_cons_of_mem _ hp, hr⟩
        · rw [if_neg hid] at h; cases h

theorem walkList_closure (ew : ElabWorkspace) :
    ∀ fuel ps st st₁, walkList ew fuel ps st = .ok st₁ →
      (∀ p ∈ ps, p ∈ st₁.visited) ∧
      (∀ x ∈ st₁.visited, x ∈ st.visited ∨ ∀ d ∈ ew.pkgDeps x, d ∈ st₁.visited) := by
  intro fuel
  induction fuel with
  | zero => intro ps st st₁ h; simp [walkList] at h
  | succ fuel ih =>
    intro ps st st₁ h
    match ps with
    | [] =>
      simp only [walkList] at h
      injection h with h
      subst h
      exact ⟨fun p hp => absurd hp (List.not_mem_nil p), fun x hx => Or.inl hx⟩
    | pid :: rest =>
      simp only [walkList] at h
      by_cases hv : pid ∈ st.visited
      · rw [if_pos hv] at h
        obtain ⟨hfst, hsnd⟩ := ih rest st st₁ h
        refine ⟨?_, hsnd⟩
        intro p hp
        rcases List.mem_cons.mp hp with rfl | hp₁
        · exact walkList_mono ew fuel rest st st₁ h p hv
        · exact hfst p hp₁
      · rw [if_neg hv] at h
        by_cases hid : pid ∈ ew.ids
        · rw [if_pos hid] at h
          cases hrec : walkList ew fuel (ew.pkgDeps pid) (visitState ew pid st) with
          | error e => rw [hrec] at h; cases h
          | ok st₂ =>
            rw [hrec] at h
            obtain ⟨hdeps, hcl₁⟩ := ih (ew.pkgDeps pid) (visitState ew pid st) st₂ hrec
            obtain ⟨hrest, hcl₂⟩ := ih rest st₂ st₁ h
            have hmono₂ : ∀ x ∈ st₂.visited, x ∈ st₁.visited :=
              walkList_mono ew fuel rest st₂ st₁ h
            have hpid₁ : pid ∈ st₁.visited :=
              hmono₂ pid
                (walkList_mono ew fuel (ew.pkgDeps pid) _ st₂ hrec pid
                  (List.mem_cons_self _ _))
            refine ⟨?_, ?_⟩
            · intro p hp
              rcases List.mem_cons.mp hp with rfl | hp₁
              · exact hpid₁
              · exact hrest p hp₁
            · intro x hx
              rcases hcl₂ x hx with hx₂ | hcl
              · rcases hcl₁ x hx₂ with hx₃ | hcl
                · rcases List.mem_cons.mp hx₃ with rfl | hx₄
                  · exact Or.inr fun d hd => hmono₂ d (hdeps d hd)
                  · exact Or.inl hx₄
                · exact Or.inr fun d hd => hmono₂ d (hcl d hd)
              · exact Or.inr hcl
        · rw [if_neg hid] at h; cases h

theorem rewriteManifestFiles_frame (g : String → Manifest → Except String Manifest) :
    ∀ ps d d₁, rewriteManifestFiles g ps d = .ok d₁ →
      ∀ q, q ∉ ps → d₁ q = d q := by
  intro ps
  induction ps with
  | nil =>
    intro d d₁ h q _
    simp only [rewriteManifestFiles] at h
    injection h with h
    subst h; rfl
  | cons p ps ih =>
    intro d d₁ h q hq
    simp only [rewriteManifestFiles] at h
    cases hd : d p with
    | none => simp [hd] at h
    | some m =>
      simp only [hd] at h
      cases hg : g p m with
      | error e => simp [hg] at h
      | ok m₁ =>
        simp only [hg] at h
        have hq₁ : q ∉ ps := fun hq₁ => hq (List.mem_cons_of_mem _ hq₁)
        have hqp : q ≠ p := fun hqp => hq (hqp ▸ List.mem_cons_self _ _)
        rw [ih _ _ h q hq₁]
        simp [diskWrite, hqp]

theorem rewriteManifestFiles_lookup (g : String → Manifest → Except String Manifest) :
    ∀ ps d d₁, rewriteManifestFiles g ps d = .ok d₁ → ps.Nodup →
      ∀ p ∈ ps, ∃ m m₁, d p = some m ∧ g p m = .ok m₁ ∧ d₁ p = some m₁ := by
  intro ps
  induction ps with
  | nil => intro d d₁ _ _ p hp; cases hp
  | cons p₀ ps ih =>
    intro d d₁ h hnd p hp
    simp only [rewriteManifestFiles] at h
    cases hd : d p₀ with
    | none => simp [hd] at h
    | some m =>
      simp only [hd] at h
      cases hg : g p₀ m with
      | error e => simp [hg] at h
      | ok m₁ =>
        simp only [hg] at h
        rw [List.nodup_cons] at hnd
        rcases List.mem_cons.mp hp with rfl | hp₁
        · refine ⟨m, m₁, hd, hg, ?_⟩
          rw [rewriteManifestFiles_frame g ps _ _ h p hnd.1]
          simp [diskWrite]
        · obtain ⟨m', m₁', hd', hg', hd₁⟩ := ih _ _ h hnd.2 p hp₁
          have hpp : p ≠ p₀ := fun hpp => hnd.1 (hpp ▸ hp₁)
          refine ⟨m', m₁', ?_, hg', hd₁⟩
          rw [← hd']
          simp [diskWrite, hpp]

theorem copyManifests_paths (origDisk : Disk) (tmpRoot wsRoot : String) :
    ∀ srcs d tmpPaths d₁,
      copyManifests origDisk tmpRoot wsRoot srcs d = .ok (tmpPaths, d₁) →
      tmpPaths = srcs.map (destPath tmpRoot wsRoot) := by
  intro srcs
  induction srcs with
  | nil =>
    intro d tmpPaths d₁ h
    simp only [copyManifests] at h
    injection h with h
    cases h
    rfl
  | cons s srcs ih =>
    intro d tmpPaths d₁ h
    simp only [copyManifests] at h
    cases ho : origDisk s with
    | none => simp [ho] at h
    | some m =>
      simp only [ho] at h
      cases hrec : copyManifests origDisk tmpRoot wsRoot srcs
          (diskWrite d (destPath tmpRoot wsRoot s) m) with
      | error e => simp [hrec] at h
      | ok pr =>
        obtain ⟨paths, d₂⟩ := pr
        simp only [hrec] at h
        injection h with h
        cases h
        rw [List.map_cons, ih _ _ _ hrec]

theorem copyManifests_frame (origDisk : Disk) (tmpRoot wsRoot : String) :
    ∀ srcs d tmpPaths d₁,
      copyManifests origDisk tmpRoot wsRoot srcs d = .ok (tmpPaths, d₁) →
      ∀ q, q ∉ srcs.map (destPath tmpRoot wsRoot) → d₁ q = d q := by
  intro srcs
  induction srcs with
  | nil =>
    intro d tmpPaths d₁ h q _
    simp only [copyManifests] at h
    injection h with h
    cases h
    rfl
  | cons s srcs ih =>
    intro d tmpPaths d₁ h q hq
    simp only [copyManifests] at h
    cases ho : origDisk s with
    | none => simp [ho] at h
    | some m =>
      simp only [ho] at h
      cases hrec : copyManifests origDisk tmpRoot wsRoot srcs
          (diskWrite d (destPath tmpRoot wsRoot s) m) with
      | error e => simp [hrec] at h
      | ok pr =>
        obtain ⟨paths, d₂⟩ := pr
        simp only [hrec] at h
        injection h with h
        have hd₂ : d₂ = d₁ := congrArg Prod.snd h
        rw [List.map_cons] at hq
        have hq₁ : q ∉ srcs.map (destPath tmpRoot wsRoot) :=
          fun hq₁ => hq (List.mem_cons_of_mem _ hq₁)
        have hqs : q ≠ destPath tmpRoot wsRoot s :=
          fun hqs => hq (hqs ▸ List.mem_cons_self _ _)
        rw [← hd₂, ih _ _ _ hrec q hq₁]
        simp [diskWrite, hqs]

theorem copyManifests_lookup (origDisk : Disk) (tmpRoot wsRoot : String) :
    ∀ srcs d tmpPaths d₁,
      copyManifests origDisk tmpRoot wsRoot srcs d = .ok (tmpPaths, d₁) →
      (srcs.map (destPath tmpRoot wsRoot)).Nodup →
      ∀ s ∈ srcs, ∃ m, origDisk s = some m ∧
        d₁ (destPath tmpRoot wsRoot s) = some m := by
  intro srcs
  induction srcs with
  | nil => intro d tmpPaths d₁ _ _ s hs; cases hs
  | cons s₀ srcs ih =>
    intro d tmpPaths d₁ h hnd s hs
    simp only [copyManifests] at h
    cases ho : origDisk s₀ with
    | none => simp [ho] at h
    | some m =>
      simp only [ho] at h
      cases hrec : copyManifests origDisk tmpRoot wsRoot srcs
          (diskWrite d (destPath tmpRoot wsRoot s₀) m) with
      | error e => simp [hrec] at h
      | ok pr =>
        obtain ⟨paths, d₂⟩ := pr
        simp only [hrec] at h
        injection h with h
        have hd₂ : d₂ = d₁ := congrArg Prod.snd h
        rw [List.map_cons, List.nodup_cons] at hnd
        rcases List.mem_cons.mp hs with rfl | hs₁
        · refine ⟨m, ho, ?_⟩
          rw [← hd₂, copyManifests_frame origDisk tmpRoot wsRoot srcs _ _ _ hrec _ hnd.1]
          simp [diskWrite]
        · obtain ⟨m', hm', hd'⟩ := ih _ _ _ hrec hnd.2 s hs₁
          exact ⟨m', hm', hd₂ ▸ hd'⟩

/-!
## Component arithmetic for path strings

These lemmas relate `splitChar`/`joinSep`/`popPath` on strings built from
separator-free components; they drive the mirroring theorem for `destPath`. -/

theorem splitChar_ne_nil (c : Char) (l : List Char) : splitChar c l ≠ [] := by
  induction l with
  | nil => simp [splitChar]
  | cons x xs ih =>
    simp only [splitChar]
    cases h : splitChar c xs with
    | nil => simp
    | cons hd tl => by_cases hx : x == c <;> simp [hx]

theorem splitChar_sep_cons (c : Char) (xs : List Char) :
    splitChar c (c :: xs) = [] :: splitChar c xs := by
  simp only [splitChar]
  cases h : splitChar c xs with
  | nil => exact absurd h (splitChar_ne_nil c xs)
  | cons hd tl => simp

theorem splitChar_of_not_mem (c : Char) (x : List Char) (hx : c ∉ x) :
    splitChar c x = [x] := by
  induction x with
  | nil => rfl
  | cons a as ih =>
    have ha : (a == c) = false := by
      simp only [beq_eq_false_iff_ne, ne_eq]
      intro h
      exact hx (h ▸ List.mem_cons_self a as)
    rw [splitChar, ih (fun h => hx (List.mem_cons_of_mem _ h))]
    simp [ha]

theorem splitChar_append_of_not_mem (c : Char) (x : List Char) (hx : c ∉ x)
    (l : List Char) (hd : List Char) (tl : List (List Char))
    (h : splitChar c l = hd :: tl) :
    splitChar c (x ++ l) = (x ++ hd) :: tl := by
  induction x with
  | nil => simpa using h
  | cons a as ih =>
    have ha : (a == c) = false := by
      simp only [beq_eq_false_iff_ne, ne_eq]
      intro hac
      exact hx (hac ▸ List.mem_cons_self a as)
    have ih₁ := ih (fun hmem => hx (List.mem_cons_of_mem _ hmem))
    rw [List.cons_append, splitChar, ih₁]
    simp [ha]

theorem joinSep_ne_nil (c : Char) (l : List (List Char)) (hl : l ≠ [])
    (hne : ∀ p ∈ l, p ≠ []) : joinSep c l ≠ [] := by
  cases l with
  | nil => cases hl rfl
  | cons x rest =>
    cases rest with
    | nil => simpa [joinSep] using hne x (List.mem_cons_self _ _)
    | cons y ys =>
      simp only [joinSep]
      exact List.append_ne_nil_of_right_ne_nil x (by simp)

theorem splitChar_joinSep (c : Char) (l : List (List Char)) (hl : l ≠ [])
    (hsep : ∀ p ∈ l, c ∉ p) : splitChar c (joinSep c l) = l := by
  induction l with
  | nil => cases hl rfl
  | cons x rest ih =>
    cases rest with
    | nil =>
      rw [joinSep, splitChar_of_not_mem c x (hsep x (List.mem_cons_self _ _))]
    | cons y ys =>
      have hrec := ih (by simp) (fun p hp => hsep p (List.mem_cons_of_mem _ hp))
      rw [joinSep]
      have hstep : splitChar c (c :: joinSep c (y :: ys)) = [] :: y :: ys := by
        rw [splitChar_sep_cons, hrec]
      have := splitChar_append_of_not_mem c x (hsep x (List.mem_cons_self _ _))
        _ [] (y :: ys) hstep
      simpa using this

theorem joinSep_concat (c : Char) (l : List (List Char)) (x : List Char)
    (hl : l ≠ []) : joinSep c (l ++ [x]) = joinSep c l ++ c :: x := by
  induction l with
  | nil => cases hl rfl
  | cons a rest ih =>
    cases rest with
    | nil => simp [joinSep]
    | cons b bs =>
      have hrec := ih (by simp)
      have hL : (a :: b :: bs) ++ [x] = a :: ((b :: bs) ++ [x]) := rfl
      have h₁ : joinSep c (a :: ((b :: bs) ++ [x])) =
          a ++ c :: joinSep c ((b :: bs) ++ [x]) := rfl
      have h₂ : joinSep c (a :: b :: bs) = a ++ c :: joinSep c (b :: bs) := rfl
      rw [hL, h₁, hrec, h₂]
      simp [List.append_assoc]

theorem getLast?_cons_of_ne_nil (a : Char) (t : List Char) (ht : t ≠ []) :
    (a :: t).getLast? = t.getLast? := by
  cases t with
  | nil => cases ht rfl
  | cons b bs => exact List.getLast?_cons_cons

theorem getLast?_joinSep_ne (c : Char) (l : List (List Char)) (hl : l ≠ [])
    (hne : ∀ p ∈ l, p ≠ []) (hsep : ∀ p ∈ l, c ∉ p) :
    ∀ ch, (joinSep c l).getLast? = some ch → ch ≠ c := by
  induction l with
  | nil => cases hl rfl
  | cons x rest ih =>
    cases rest with
    | nil =>
      intro ch hch hcc
      rw [joinSep] at hch
      exact hsep x (List.mem_cons_self _ _)
        (hcc ▸ List.mem_of_getLast?_eq_some hch)
    | cons y ys =>
      intro ch hch hcc
      rw [joinSep, List.getLast?_append] at hch
      have hjn : joinSep c (y :: ys) ≠ [] :=
        joinSep_ne_nil c (y :: ys) (by simp)
          (fun p hp => hne p (List.mem_cons_of_mem _ hp))
      rw [getLast?_cons_of_ne_nil c _ hjn] at hch
      have hsome : (joinSep c (y :: ys)).getLast?.isSome := by
        rw [List.getLast?_isSome]; exact hjn
      cases hlast : (joinSep c (y :: ys)).getLast? with
      | none => rw [hlast] at hsome; cases hsome
      | some w =>
        rw [hlast] at hch
        simp only [Option.or_some] at hch
        injection hch with hch
        exact ih (by simp) (fun p hp => hne p (List.mem_cons_of_mem _ hp))
          (fun p hp => hsep p (List.mem_cons_of_mem _ hp)) ch (hch ▸ hlast) hcc

theorem popPath_append_name (a nm : List Char) (hnm : ('/' : Char) ∉ nm) :
    popPath ⟨a ++ '/' :: nm⟩ = ⟨a⟩ := by
  have hrev : (a ++ '/' :: nm).reverse = nm.reverse ++ '/' :: a.reverse := by
    rw [List.reverse_append, List.reverse_cons, List.append_assoc,
      List.singleton_append]
  have hall : ∀ x ∈ nm.reverse, (x != '/') = true := by
    intro x hx
    simp only [bne_iff_ne, ne_eq]
    intro hxc
    exact hnm (hxc ▸ List.mem_reverse.mp hx)
  have hdrop : ((a ++ '/' :: nm).reverse).dropWhile (fun c => c != '/') =
      '/' :: a.reverse := by
    rw [hrev, List.dropWhile_append_of_pos hall, List.dropWhile_cons]
    simp
  show String.mk _ = String.mk a
  rw [hdrop]
  simp

theorem filter_nonempty_of_all (l : List (List Char)) (h : ∀ p ∈ l, p ≠ []) :
    l.filter (fun p => !p.isEmpty) = l := by
  rw [List.filter_eq_self]
  intro a ha
  simpa using h a ha

theorem strComponents_sep_join (l : List (List Char)) (hl : l ≠ [])
    (hne : ∀ p ∈ l, p ≠ []) (hsep : ∀ p ∈ l, ('/' : Char) ∉ p) :
    strComponents ⟨'/' :: joinSep '/' l⟩ = l := by
  show (splitChar '/' ('/' :: joinSep '/' l)).filter (fun p => !p.isEmpty) = l
  rw [splitChar_sep_cons, splitChar_joinSep '/' l hl hsep]
  simpa using filter_nonempty_of_all l hne

theorem strComponents_sep_sep_join (l : List (List Char)) (hl : l ≠ [])
    (hne : ∀ p ∈ l, p ≠ []) (hsep : ∀ p ∈ l, ('/' : Char) ∉ p) :
    strComponents ⟨'/' :: '/' :: joinSep '/' l⟩ = l := by
  show (splitChar '/' ('/' :: '/' :: joinSep '/' l)).filter (fun p => !p.isEmpty) = l
  rw [splitChar_sep_cons, splitChar_sep_cons, splitChar_joinSep '/' l hl hsep]
  simpa using filter_nonempty_of_all l hne

theorem cargoData_ne_nil : "Cargo.toml".data ≠ [] := by decide

theorem cargoData_no_sep : ('/' : Char) ∉ "Cargo.toml".data := by decide

theorem compsFull_ne (dirComps : List (List Char))
    (hcomps : ∀ p ∈ dirComps, p ≠ [] ∧ ('/' : Char) ∉ p) :
    ∀ p ∈ dirComps ++ ["Cargo.toml".data], p ≠ [] := by
  intro p hp
  rcases List.mem_append.mp hp with h | h
  · exact (hcomps p h).1
  · rw [List.mem_singleton.mp h]
    exact cargoData_ne_nil

theorem compsFull_sep (dirComps : List (List Char))
    (hcomps : ∀ p ∈ dirComps, p ≠ [] ∧ ('/' : Char) ∉ p) :
    ∀ p ∈ dirComps ++ ["Cargo.toml".data], ('/' : Char) ∉ p := by
  intro p hp
  rcases List.mem_append.mp hp with h | h
  · exact (hcomps p h).2
  · rw [List.mem_singleton.mp h]
    exact cargoData_no_sep

theorem strComponents_congr (s : String) (l : List Char) (h : s.data = l) :
    strComponents s = strComponents ⟨l⟩ := by
  cases s
  cases h
  rfl

theorem pathJoin_data_rel (s q : String) (hq : isAbsolutePath q = false)
    (hs : s.data ≠ []) (hlast : s.data.getLast? ≠ some '/') :
    (pathJoin s q).data = s.data ++ '/' :: q.data := by
  rw [pathJoin, if_neg (by simp [hq]), if_neg hs, if_neg hlast]
  simp [String.data_append]

theorem pathJoin_data_rel_slash (s q : String) (hq : isAbsolutePath q = false)
    (hs : s.data ≠ []) (hlast : s.data.getLast? = some '/') :
    (pathJoin s q).data = s.data ++ q.data := by
  rw [pathJoin, if_neg (by simp [hq]), if_neg hs, if_pos hlast]
  simp [String.data_append]

theorem strComponents_src (wsData : List Char) (dirComps : List (List Char))
    (hcomps : ∀ p ∈ dirComps, p ≠ [] ∧ ('/' : Char) ∉ p) :
    strComponents (strSlice
        ⟨wsData ++ '/' :: joinSep '/' (dirComps ++ ["Cargo.toml".data])⟩
        (String.length ⟨wsData⟩)) =
      dirComps ++ ["Cargo.toml".data] := by
  have hdata : (strSlice
      ⟨wsData ++ '/' :: joinSep '/' (dirComps ++ ["Cargo.toml".data])⟩
      (String.length ⟨wsData⟩)).data =
      '/' :: joinSep '/' (dirComps ++ ["Cargo.toml".data]) := by
    show (wsData ++ '/' :: joinSep '/' (dirComps ++ ["Cargo.toml".data])).drop
        (String.length ⟨wsData⟩) = _
    rw [String.length_mk, List.drop_left]
  rw [strComponents_congr _ _ hdata]
  exact strComponents_sep_join _ (by simp) (compsFull_ne dirComps hcomps)
    (compsFull_sep dirComps hcomps)

theorem strComponents_dest (tmpData wsData : List Char) (dirComps : List (List Char))
    (hcomps : ∀ p ∈ dirComps, p ≠ [] ∧ ('/' : Char) ∉ p) :
    strComponents (strSlice
        (destPath ⟨tmpData⟩ ⟨wsData⟩
          ⟨wsData ++ '/' :: joinSep '/' (dirComps ++ ["Cargo.toml".data])⟩)
        (String.length ⟨tmpData⟩)) =
      dirComps ++ ["Cargo.toml".data] := by
  have habs : isAbsolutePath "Cargo.toml" = false := rfl
  cases dirComps with
  | nil =>
    have hpop : popPath ⟨wsData ++ '/' :: joinSep '/' ([] ++ ["Cargo.toml".data])⟩ =
        ⟨wsData⟩ := by
      rw [show joinSep '/' ([] ++ ["Cargo.toml".data]) = "Cargo.toml".data from rfl]
      exact popPath_append_name wsData _ cargoData_no_sep
    have hsarg : (String.mk tmpData ++ "/" ++ strSlice
        (popPath ⟨wsData ++ '/' :: joinSep '/' ([] ++ ["Cargo.toml".data])⟩)
        (String.length ⟨wsData⟩)).data = tmpData ++ ['/'] := by
      rw [hpop]
      show (String.mk tmpData ++ "/" ++
        ⟨wsData.drop (String.length ⟨wsData⟩)⟩).data = tmpData ++ ['/']
      rw [String.length_mk, List.drop_length]
      simp [String.data_append]
    have hlast : (String.mk tmpData ++ "/" ++ strSlice
        (popPath ⟨wsData ++ '/' :: joinSep '/' ([] ++ ["Cargo.toml".data])⟩)
        (String.length ⟨wsData⟩)).data.getLast? = some '/' := by
      rw [hsarg]
      exact List.getLast?_concat tmpData
    have hdest : (destPath ⟨tmpData⟩ ⟨wsData⟩
        ⟨wsData ++ '/' :: joinSep '/' ([] ++ ["Cargo.toml".data])⟩).data =
        tmpData ++ '/' :: "Cargo.toml".data := by
      rw [destPath, pathJoin_data_rel_slash _ _ habs (by rw [hsarg]; simp) hlast,
        hsarg, List.append_assoc, List.singleton_append]
    have hslice : (strSlice (destPath ⟨tmpData⟩ ⟨wsData⟩
        ⟨wsData ++ '/' :: joinSep '/' ([] ++ ["Cargo.toml".data])⟩)
        (String.length ⟨tmpData⟩)).data = '/' :: "Cargo.toml".data := by
      show (destPath ⟨tmpData⟩ ⟨wsData⟩
        ⟨wsData ++ '/' :: joinSep '/' ([] ++ ["Cargo.toml".data])⟩).data.drop
          (String.length ⟨tmpData⟩) = _
      rw [hdest, String.length_mk, List.drop_left]
    rw [strComponents_congr _ _ hslice,
      show ('/' :: "Cargo.toml".data) =
        '/' :: joinSep '/' (([] : List (List Char)) ++ ["Cargo.toml".data]) from rfl]
    exact strComponents_sep_join _ (by simp) (compsFull_ne [] (by simp))
      (compsFull_sep [] (by simp))
  | cons dc dcs =>
    have hjc : joinSep '/' ((dc :: dcs) ++ ["Cargo.toml".data]) =
        joinSep '/' (dc :: dcs) ++ '/' :: "Cargo.toml".data :=
      joinSep_concat '/' (dc :: dcs) _ (by simp)
    have hshape : wsData ++ '/' :: joinSep '/' ((dc :: dcs) ++ ["Cargo.toml".data]) =
        (wsData ++ '/' :: joinSep '/' (dc :: dcs)) ++ '/' :: "Cargo.toml".data := by
      rw [hjc, List.append_assoc]
      simp
    have hpop : popPath ⟨wsData ++ '/' :: joinSep '/' ((dc :: dcs) ++ ["Cargo.toml".data])⟩ =
        ⟨wsData ++ '/' :: joinSep '/' (dc :: dcs)⟩ := by
      rw [show (⟨wsData ++ '/' :: joinSep '/' ((dc :: dcs) ++ ["Cargo.toml".data])⟩ : String) =
          ⟨(wsData ++ '/' :: joinSep '/' (dc :: dcs)) ++ '/' :: "Cargo.toml".data⟩ from
          congrArg String.mk hshape]
      exact popPath_append_name _ _ cargoData_no_sep
    have hne₁ : ∀ p ∈ dc :: dcs, p ≠ [] := fun p hp => (hcomps p hp).1
    have hsep₁ : ∀ p ∈ dc :: dcs, ('/' : Char) ∉ p := fun p hp => (hcomps p hp).2
    have hjn : joinSep '/' (dc :: dcs) ≠ [] :=
      joinSep_ne_nil '/' (dc :: dcs) (by simp) hne₁
    have hsarg : (String.mk tmpData ++ "/" ++ strSlice
        (popPath ⟨wsData ++ '/' :: joinSep '/' ((dc :: dcs) ++ ["Cargo.toml".data])⟩)
        (String.length ⟨wsData⟩)).data =
        tmpData ++ '/' :: '/' :: joinSep '/' (dc :: dcs) := by
      rw [hpop]
      show (String.mk tmpData ++ "/" ++
        ⟨(wsData ++ '/' :: joinSep '/' (dc :: dcs)).drop (String.length ⟨wsData⟩)⟩).data = _
      rw [String.length_mk, List.drop_left]
      simp [String.data_append]
    have hlastne : (String.mk tmpData ++ "/" ++ strSlice
        (popPath ⟨wsData ++ '/' :: joinSep '/' ((dc :: dcs) ++ ["Cargo.toml".data])⟩)
        (String.length ⟨wsData⟩)).data.getLast? ≠ some '/' := by
      rw [hsarg]
      intro hcontra
      rw [List.getLast?_append,
        getLast?_cons_of_ne_nil _ _ (List.cons_ne_nil _ _),
        getLast?_cons_of_ne_nil _ _ hjn] at hcontra
      have hsome : (joinSep '/' (dc :: dcs)).getLast?.isSome := by
        rw [List.getLast?_isSome]; exact hjn
      cases hlast : (joinSep '/' (dc :: dcs)).getLast? with
      | none => rw [hlast] at hsome; cases hsome
      | some w =>
        rw [hlast] at hcontra
        simp only [Option.or_some] at hcontra
        injection hcontra with hw
        exact getLast?_joinSep_ne '/' (dc :: dcs) (by simp) hne₁ hsep₁ w hlast hw
    have hdest : (destPath ⟨tmpData⟩ ⟨wsData⟩
        ⟨wsData ++ '/' :: joinSep '/' ((dc :: dcs) ++ ["Cargo.toml".data])⟩).data =
        tmpData ++ '/' :: '/' :: (joinSep '/' (dc :: dcs) ++ '/' :: "Cargo.toml".data) := by
      rw [destPath, pathJoin_data_rel _ _ habs (by rw [hsarg]; simp) hlastne, hsarg]
      show (tmpData ++ '/' :: '/' :: joinSep '/' (dc :: dcs)) ++
          '/' :: "Cargo.toml".data = _
      rw [List.append_assoc]
      simp
    have hslice : (strSlice (destPath ⟨tmpData⟩ ⟨wsData⟩
        ⟨wsData ++ '/' :: joinSep '/' ((dc :: dcs) ++ ["Cargo.toml".data])⟩)
        (String.length ⟨tmpData⟩)).data =
        '/' :: '/' :: joinSep '/' ((dc :: dcs) ++ ["Cargo.toml".data]) := by
      show (destPath ⟨tmpData⟩ ⟨wsData⟩
        ⟨wsData ++ '/' :: joinSep '/' ((dc :: dcs) ++ ["Cargo.toml".data])⟩).data.drop
          (String.length ⟨tmpData⟩) = _
      rw [hdest, String.length_mk, List.drop_left, hjc]
    rw [strComponents_congr _ _ hslice]
    exact strComponents_sep_sep_join _ (by simp) (compsFull_ne _ hcomps)
      (compsFull_sep _ hcomps)

/-!
## Claim theorems

Each claim of the specification is settled by exactly one theorem below
(plus, where the claim as stated fails on the code, a closed counterexample
theorem, and a closed witness theorem for every theorem with hypotheses). -/

theorem applyStepEntry_error_iff (step : String → TomlValue → Except String (Option TomlValue))
    (p : String × TomlValue) :
    (∃ e, applyStepEntry step p = .error e) ↔ ∃ e, step p.1 p.2 = .error e := by
  cases hstep : step p.1 p.2 with
  | error e => simp [applyStepEntry, hstep]
  | ok o => cases o <;> simp [applyStepEntry, hstep]

theorem widenStep_error_iff (n : String) (v : TomlValue) :
    (∃ e, applyStepEntry widenValueStep (n, v) = .error e) ↔
      isStringOrTable v = false := by
  rw [applyStepEntry_error_iff]
  cases v with
  | str s => simp [widenValueStep, isStringOrTable]
  | table t =>
    by_cases hpath : tableContains t "path" <;>
      simp [widenValueStep, isStringOrTable, hpath]
  | int m => simp [widenValueStep, isStringOrTable]
  | boolean b => simp [widenValueStep, isStringOrTable]
  | arr es => simp [widenValueStep, isStringOrTable]

/-- The dependency table of the C1 counterexample: a structured entry that
carries both a `path` key and a `version` key. -/
def pathVersionTable : Table :=
  [("path", TomlValue.str "../loc"), ("version", TomlValue.str "1.0.0")]

/-- A dependency table with one entry whose value is `pathVersionTable`. -/
def pathVersionDeps : Table :=
  [("dep", TomlValue.table pathVersionTable)]

/-- C1 counterexample: on a structured dependency entry that carries both a
`path` key and a `version` key, `replace_version_with_wildcard` leaves the
entry entirely unchanged (the source skips any table containing `path` via
`if t.contains_key("path") { continue; }`), so the `version` value stays
`"1.0.0"` and is not replaced by the wildcard `"*"` — contradicting the
claim that the `version` key is replaced regardless of a `path` key. -/
theorem widen_path_version_counterexample :
    replace_version_with_wildcard pathVersionDeps = .ok pathVersionDeps ∧
    tableContains pathVersionTable "version" = true ∧
    tableGet pathVersionTable "version" = some (TomlValue.str "1.0.0") ∧
    ("1.0.0" : String) ≠ "*" :=
  ⟨rfl, rfl, rfl, by decide⟩

/-- C1 (amended): on a well-formed dependency table (distinct keys, every
entry a string or a table), `replace_version_with_wildcard` succeeds and maps
every entry pointwise: a bare version string becomes `"*"`; a structured
table carrying a `path` key is left entirely unchanged; a structured table
without `path` but with a `version` key has exactly that key replaced by
`"*"` (all other keys intact, per the second conjunct); entries lacking a
version concept are unchanged. -/
theorem widen_characterization (deps : Table)
    (hnd : (tableKeys deps).Nodup)
    (hok : ∀ p ∈ deps, isStringOrTable p.2 = true) :
    replace_version_with_wildcard deps = .ok (deps.map widenEntrySpec) ∧
    (∀ t k, k ≠ "version" →
      tableGet (tableInsert t "version" (TomlValue.str "*")) k = tableGet t k) := by
  refine ⟨widen_pointwise deps hnd hok, ?_⟩
  intro t k hk
  exact tableGet_insert_ne t "version" k _ (fun h => hk h.symm)

/-- A well-formed dependency table exercising all three widening shapes. -/
def widenWitnessDeps : Table :=
  [("a", TomlValue.str "1.0"),
   ("b", TomlValue.table [("version", TomlValue.str "2"), ("features", TomlValue.arr [])]),
   ("c", TomlValue.table [("git", TomlValue.str "u")])]

theorem widen_characterization_witness :
    replace_version_with_wildcard widenWitnessDeps =
      .ok (widenWitnessDeps.map widenEntrySpec) ∧
    tableGet (tableInsert [("version", TomlValue.str "2")] "version" (TomlValue.str "*"))
        "features" =
      tableGet [("version", TomlValue.str "2")] "features" :=
  ⟨(widen_characterization widenWitnessDeps (by decide) (by decide)).1,
   (widen_characterization widenWitnessDeps (by decide) (by decide)).2
     [("version", TomlValue.str "2")] "features" (by decide)⟩

/-- C8: on a dependency table with distinct keys, the widen mutation fails
(panics, modelled as `Except.error`) exactly when some entry's value is
neither a string nor a structured table; when every entry is a string or a
table it completes without error. -/
theorem widen_error_characterization (deps : Table)
    (hnd : (tableKeys deps).Nodup) :
    (∃ e, replace_version_with_wildcard deps = .error e) ↔
      ∃ p ∈ deps, isStringOrTable p.2 = false := by
  rw [replace_version_with_wildcard, depTableLoop_eq_exceptMapList _ _ hnd,
    exceptMapList_error_iff]
  constructor
  · rintro ⟨p, hp, he⟩
    exact ⟨p, hp, (widenStep_error_iff p.1 p.2).mp he⟩
  · rintro ⟨p, hp, hbad⟩
    exact ⟨p, hp, (widenStep_error_iff p.1 p.2).mpr hbad⟩

/-- A dependency table whose second entry is an integer (neither string nor
table). -/
def widenBadDeps : Table :=
  [("a", TomlValue.str "1.0"), ("b", TomlValue.int 3)]

theorem widen_error_characterization_witness :
    ((∃ e, replace_version_with_wildcard widenBadDeps = .error e) ↔
      ∃ p ∈ widenBadDeps, isStringOrTable p.2 = false) ∧
    ((∃ e, replace_version_with_wildcard widenWitnessDeps = .error e) ↔
      ∃ p ∈ widenWitnessDeps, isStringOrTable p.2 = false) :=
  ⟨widen_error_characterization widenBadDeps (by decide),
   widen_error_characterization widenWitnessDeps (by decide)⟩

/-- C3: on a successful run of `replace_path_with_absolute` over a
well-formed table, a structured entry whose `path` key holds a string is
treated as follows: an absolute path is left unchanged; a relative path
that, joined with the sandbox copy's manifest directory, resolves to a
`Cargo.toml` inside the sandbox is left unchanged; a relative path that does
not so resolve has exactly its `path` value replaced by the canonicalized
resolution against the original workspace root. -/
theorem path_rewrite_characterization
    (env : FsEnv) (origRoot tmpRoot tmpManifest : String) (deps d₁ : Table)
    (hnd : (tableKeys deps).Nodup)
    (hrun : replace_path_with_absolute env deps origRoot tmpRoot tmpManifest = .ok d₁)
    (n : String) (t : Table) (hmem : (n, TomlValue.table t) ∈ deps)
    (p : String) (hpath : tableGet t "path" = some (TomlValue.str p)) :
    (isRelativePath p = false → tableGet d₁ n = some (TomlValue.table t)) ∧
    (isRelativePath p = true →
      env.fsExists (rpwaCheckPath tmpRoot (rpwaRelative tmpRoot tmpManifest p)) = true →
      tableGet d₁ n = some (TomlValue.table t)) ∧
    (isRelativePath p = true →
      env.fsExists (rpwaCheckPath tmpRoot (rpwaRelative tmpRoot tmpManifest p)) = false →
      ∀ c, env.canon (pathJoin origRoot (rpwaRelative tmpRoot tmpManifest p)) = some c →
        tableGet d₁ n = some (TomlValue.table (tableInsert t "path" (TomlValue.str c)))) := by
  have hd₁ := rpwa_pointwise env origRoot tmpRoot tmpManifest deps d₁ hnd hrun
  have hget : tableGet deps n = some (TomlValue.table t) :=
    tableGet_of_mem_nodup deps n _ hmem hnd
  have hmap : tableGet d₁ n =
      some (rpwaValueSpec env origRoot tmpRoot tmpManifest (TomlValue.table t)) := by
    rw [hd₁, tableGet_map_value, hget]
    rfl
  have hc : tableContains t "path" = true := by
    rw [tableContains, hpath]; rfl
  refine ⟨?_, ?_, ?_⟩
  · intro hrel
    rw [hmap]
    simp [rpwaValueSpec, rpwaValueStep, hc, hpath, hrel]
  · intro hrel hex
    rw [hmap]
    simp [rpwaValueSpec, rpwaValueStep, hc, hpath, hrel, hex]
  · intro hrel hex c hcanon
    rw [hmap]
    simp [rpwaValueSpec, rpwaValueStep, hc, hpath, hrel, hex, hcanon]

/-- A filesystem environment in which nothing exists in the sandbox and
canonicalization resolves to an absolute location. -/
def rpwaEnvW : FsEnv :=
  { fsExists := fun _ => false, canon := fun _ => some "/abs/b" }

/-- A dependency table with one relative path dependency. -/
def rpwaDepsW : Table :=
  [("dep", TomlValue.table [("path", TomlValue.str "../b")])]

theorem path_rewrite_characterization_witness :
    tableGet [("dep", TomlValue.table [("path", TomlValue.str "/abs/b")])] "dep" =
      some (TomlValue.table
        (tableInsert [("path", TomlValue.str "../b")] "path" (TomlValue.str "/abs/b"))) :=
  (path_rewrite_characterization rpwaEnvW "/ws" "/tmp/x" "/tmp/x/a/Cargo.toml"
      rpwaDepsW [("dep", TomlValue.table [("path", TomlValue.str "/abs/b")])]
      (by decide) rfl "dep" [("path", TomlValue.str "../b")]
      (List.mem_cons_self _ _) "../b" rfl).2.2 rfl rfl "/abs/b" rfl

/-- C6: running `replace_path_with_absolute` a second time over the result
of a successful run (same roots, same manifest location, same filesystem)
changes nothing: entries that resolved inside the sandbox take the same
branch again, and rewritten entries now hold absolute paths, which the
relative-path test skips (using that `fs::canonicalize` returns absolute
paths). -/
theorem path_rewrite_idempotent
    (env : FsEnv) (origRoot tmpRoot tmpManifest : String) (deps d₁ : Table)
    (hnd : (tableKeys deps).Nodup)
    (habs : ∀ s c, env.canon s = some c → isAbsolutePath c = true)
    (hrun : replace_path_with_absolute env deps origRoot tmpRoot tmpManifest = .ok d₁) :
    replace_path_with_absolute env d₁ origRoot tmpRoot tmpManifest = .ok d₁ := by
  have hd₁ := rpwa_pointwise env origRoot tmpRoot tmpManifest deps d₁ hnd hrun
  have hne := rpwa_no_error_of_ok env origRoot tmpRoot tmpManifest deps d₁ hnd hrun
  have hnd₁ : (tableKeys d₁).Nodup := by
    rw [hd₁, tableKeys_map_value]; exact hnd
  rw [replace_path_with_absolute, depTableLoop_eq_exceptMapList _ _ hnd₁,
    exceptMapList_ok_of_forall _ id d₁ ?_, List.map_id]
  intro q hq
  rw [hd₁] at hq
  obtain ⟨e₀, he₀, rfl⟩ := List.mem_map.mp hq
  have hidem := rpwaValueStep_idem env origRoot tmpRoot tmpManifest habs e₀.2
    (hne e₀ he₀)
  simp [applyStepEntry, hidem]

theorem path_rewrite_idempotent_witness :
    replace_path_with_absolute rpwaEnvW
      [("dep", TomlValue.table [("path", TomlValue.str "/abs/b")])]
      "/ws" "/tmp/x" "/tmp/x/a/Cargo.toml" =
    .ok [("dep", TomlValue.table [("path", TomlValue.str "/abs/b")])] :=
  path_rewrite_idempotent rpwaEnvW "/ws" "/tmp/x" "/tmp/x/a/Cargo.toml"
    rpwaDepsW [("dep", TomlValue.table [("path", TomlValue.str "/abs/b")])]
    (by decide)
    (fun s c h => by injection h with h; rw [← h]; rfl)
    rfl

/-- C10: on a well-formed table, `replace_path_with_absolute` panics (the
`unwrap` of `fs::canonicalize`, modelled as `Except.error`) exactly when
some entry qualifies for rewriting (structured table, string `path`,
relative, not resolving to a manifest inside the sandbox) and the
canonicalization of its original-workspace location fails (the target does
not exist); otherwise the pass is total. -/
theorem canonicalize_unwrap_characterization
    (env : FsEnv) (origRoot tmpRoot tmpManifest : String) (deps : Table)
    (hnd : (tableKeys deps).Nodup) :
    (∃ e, replace_path_with_absolute env deps origRoot tmpRoot tmpManifest = .error e) ↔
      ∃ p ∈ deps, ∃ t pstr, p.2 = TomlValue.table t ∧
        tableGet t "path" = some (TomlValue.str pstr) ∧
        isRelativePath pstr = true ∧
        env.fsExists (rpwaCheckPath tmpRoot (rpwaRelative tmpRoot tmpManifest pstr)) = false ∧
        env.canon (pathJoin origRoot (rpwaRelative tmpRoot tmpManifest pstr)) = none := by
  rw [replace_path_with_absolute, depTableLoop_eq_exceptMapList _ _ hnd,
    exceptMapList_error_iff]
  constructor
  · rintro ⟨p, hp, he⟩
    obtain ⟨t, pstr, h₁, h₂, h₃, h₄, h₅⟩ :=
      (rpwaValueStep_error_iff env origRoot tmpRoot tmpManifest p.2).mp
        ((applyStepEntry_error_iff _ p).mp he)
    exact ⟨p, hp, t, pstr, h₁, h₂, h₃, h₄, h₅⟩
  · rintro ⟨p, hp, t, pstr, h₁, h₂, h₃, h₄, h₅⟩
    exact ⟨p, hp, (applyStepEntry_error_iff _ p).mpr
      ((rpwaValueStep_error_iff env origRoot tmpRoot tmpManifest p.2).mpr
        ⟨t, pstr, h₁, h₂, h₃, h₄, h₅⟩)⟩

/-- A filesystem environment in which nothing exists and canonicalization
always fails (the original-location target is missing). -/
def rpwaEnvNone : FsEnv :=
  { fsExists := fun _ => false, canon := fun _ => none }

theorem canonicalize_unwrap_characterization_witness :
    (∃ e, replace_path_with_absolute rpwaEnvNone rpwaDepsW
        "/ws" "/tmp/x" "/tmp/x/a/Cargo.toml" = .error e) ↔
      ∃ p ∈ rpwaDepsW, ∃ t pstr, p.2 = TomlValue.table t ∧
        tableGet t "path" = some (TomlValue.str pstr) ∧
        isRelativePath pstr = true ∧
        rpwaEnvNone.fsExists (rpwaCheckPath "/tmp/x"
          (rpwaRelative "/tmp/x" "/tmp/x/a/Cargo.toml" pstr)) = false ∧
        rpwaEnvNone.canon (pathJoin "/ws"
          (rpwaRelative "/tmp/x" "/tmp/x/a/Cargo.toml" pstr)) = none :=
  canonicalize_unwrap_characterization rpwaEnvNone "/ws" "/tmp/x"
    "/tmp/x/a/Cargo.toml" rpwaDepsW (by decide)

theorem applyDepTables_get_not_mem (f : Table → Table) :
    ∀ (keys : List String) (block : Table) (k : String), k ∉ keys →
      tableGet (applyDepTables f keys block) k = tableGet block k := by
  intro keys
  induction keys with
  | nil => intro block k _; rfl
  | cons key rest ih =>
    intro block k hk
    have hkr : k ∉ rest := fun h => hk (List.mem_cons_of_mem _ h)
    have hkk : key ≠ k := fun h => hk (h ▸ List.mem_cons_self _ _)
    rw [applyDepTables]
    cases hg : tableGet block key with
    | none => simp only [hg]; exact ih block k hkr
    | some v =>
      cases v with
      | table dt =>
        simp only [hg]
        rw [ih _ k hkr, tableGet_insert_ne _ _ _ _ hkk]
      | str s => simp only [hg]; exact ih block k hkr
      | int n => simp only [hg]; exact ih block k hkr
      | boolean b => simp only [hg]; exact ih block k hkr
      | arr es => simp only [hg]; exact ih block k hkr

theorem applyDepTables_get_mem (f : Table → Table) :
    ∀ (keys : List String) (block : Table), keys.Nodup →
      ∀ dk ∈ keys, ∀ dt, tableGet block dk = some (TomlValue.table dt) →
        tableGet (applyDepTables f keys block) dk = some (TomlValue.table (f dt)) := by
  intro keys
  induction keys with
  | nil => intro block _ dk hdk; cases hdk
  | cons key rest ih =>
    intro block hnd dk hdk dt hdt
    rw [List.nodup_cons] at hnd
    rw [applyDepTables]
    rcases List.mem_cons.mp hdk with rfl | hdk₁
    · rw [hdt]
      simp only []
      rw [applyDepTables_get_not_mem f rest _ dk hnd.1, tableGet_insert_self]
    · have hne : key ≠ dk := fun h => hnd.1 (h ▸ hdk₁)
      cases hg : tableGet block key with
      | none => simp only [hg]; exact ih block hnd.2 dk hdk₁ dt hdt
      | some v =>
        cases v with
        | table dt₀ =>
          simp only [hg]
          exact ih _ hnd.2 dk hdk₁ dt
            (by rw [tableGet_insert_ne _ _ _ _ hne]; exact hdt)
        | str s => simp only [hg]; exact ih block hnd.2 dk hdk₁ dt hdt
        | int n => simp only [hg]; exact ih block hnd.2 dk hdk₁ dt hdt
        | boolean b => simp only [hg]; exact ih block hnd.2 dk hdk₁ dt hdt
        | arr es => simp only [hg]; exact ih block hnd.2 dk hdk₁ dt hdt

/-- C7: `manipulate_dependencies f` applies `f` to exactly the normal, dev
and build dependency tables (when present) and, inside each table-valued
platform-target block, to each of the three recognized dependency-table
keys when table-valued; the package metadata, `bin`, `lib`, the set of
target keys, non-table target values and unrecognized keys inside a target
block are all left unchanged. -/
theorem manipulate_dependencies_coverage (f : Table → Table) (m : Manifest) :
    (manipulate_dependencies f m).package = m.package ∧
    (manipulate_dependencies f m).bin = m.bin ∧
    (manipulate_dependencies f m).lib = m.lib ∧
    (manipulate_dependencies f m).dependencies = m.dependencies.map f ∧
    (manipulate_dependencies f m).dev_dependencies = m.dev_dependencies.map f ∧
    (manipulate_dependencies f m).build_dependencies = m.build_dependencies.map f ∧
    ((manipulate_dependencies f m).target = none ↔ m.target = none) ∧
    (∀ tt, m.target = some tt →
      (manipulate_dependencies f m).target =
        some (tt.map (fun e => (e.1, targetBlockMap f e.2))) ∧
      tableKeys (tt.map (fun e => (e.1, targetBlockMap f e.2))) = tableKeys tt ∧
      (∀ k tgt, tableGet tt k = some (TomlValue.table tgt) →
        tableGet (tt.map (fun e => (e.1, targetBlockMap f e.2))) k =
          some (TomlValue.table (applyDepTables f depTableKinds tgt))) ∧
      (∀ k v, tableGet tt k = some v → (∀ tgt, v ≠ TomlValue.table tgt) →
        tableGet (tt.map (fun e => (e.1, targetBlockMap f e.2))) k = some v)) ∧
    (∀ tgt k, k ∉ depTableKinds →
      tableGet (applyDepTables f depTableKinds tgt) k = tableGet tgt k) ∧
    (∀ dk ∈ depTableKinds, ∀ tgt dt,
      tableGet tgt dk = some (TomlValue.table dt) →
      tableGet (applyDepTables f depTableKinds tgt) dk =
        some (TomlValue.table (f dt))) := by
  refine ⟨rfl, rfl, rfl, rfl, rfl, rfl, ?_, ?_, ?_, ?_⟩
  · show (m.target.map _) = none ↔ m.target = none
    cases m.target <;> simp
  · intro tt htt
    have htgt : (manipulate_dependencies f m).target =
        some (tt.map (fun e => (e.1, targetBlockMap f e.2))) := by
      show m.target.map _ = _
      rw [htt]
      rfl
    refine ⟨htgt, tableKeys_map_value tt _, ?_, ?_⟩
    · intro k tgt hget
      rw [tableGet_map_value, hget]
      rfl
    · intro k v hget hnt
      rw [tableGet_map_value, hget]
      cases v with
      | table tgt => exact absurd rfl (hnt tgt)
      | str s => rfl
      | int n => rfl
      | boolean b => rfl
      | arr es => rfl
  · intro tgt k hk
    exact applyDepTables_get_not_mem f depTableKinds tgt k hk
  · intro dk hdk tgt dt hget
    exact applyDepTables_get_mem f depTableKinds tgt (by decide) dk hdk dt hget

/-- A transform and a manifest exercising every branch of
`manipulate_dependencies`. -/
def c7f : Table → Table := fun t => tableInsert t "extra" (TomlValue.str "x")

/-- A target block with one recognized table-valued key, one recognized
non-table key, and one unrecognized key. -/
def c7Block : Table :=
  [("dependencies", TomlValue.table [("q", TomlValue.str "2")]),
   ("dev-dependencies", TomlValue.str "odd"),
   ("custom", TomlValue.str "keep")]

/-- The target table of the witness manifest: a table-valued block and a
non-table entry. -/
def c7Target : Table :=
  [("cfg(unix)", TomlValue.table c7Block), ("weird", TomlValue.str "nontable")]

/-- The witness manifest. -/
def c7m : Manifest :=
  { package := [("name", TomlValue.str "p")]
    bin := none
    lib := some [("name", TomlValue.str "l")]
    dependencies := some [("d", TomlValue.str "1")]
    dev_dependencies := none
    build_dependencies := none
    target := some c7Target }

theorem manipulate_dependencies_coverage_witness :
    (manipulate_dependencies c7f c7m).package = c7m.package ∧
    (manipulate_dependencies c7f c7m).lib = c7m.lib ∧
    (manipulate_dependencies c7f c7m).dependencies =
      (c7m.dependencies).map c7f ∧
    tableGet (c7Target.map (fun e => (e.1, targetBlockMap c7f e.2))) "cfg(unix)" =
      some (TomlValue.table (applyDepTables c7f depTableKinds c7Block)) ∧
    tableGet (c7Target.map (fun e => (e.1, targetBlockMap c7f e.2))) "weird" =
      some (TomlValue.str "nontable") ∧
    tableGet (applyDepTables c7f depTableKinds c7Block) "custom" =
      tableGet c7Block "custom" ∧
    tableGet (applyDepTables c7f depTableKinds c7Block) "dependencies" =
      some (TomlValue.table (c7f [("q", TomlValue.str "2")])) := by
  have h := manipulate_dependencies_coverage c7f c7m
  have htt := h.2.2.2.2.2.2.2.1 c7Target rfl
  exact ⟨h.1, h.2.2.1, h.2.2.2.1,
    htt.2.2.1 "cfg(unix)" c7Block rfl,
    htt.2.2.2 "weird" (TomlValue.str "nontable") rfl (fun tgt h₁ => by cases h₁),
    h.2.2.2.2.2.2.2.2.1 c7Block "custom" (by decide),
    h.2.2.2.2.2.2.2.2.2 "dependencies" (by decide) c7Block
      [("q", TomlValue.str "2")] rfl⟩

/-- The spec's notion of "the package root is a descendant of the workspace
root": equal to the root, or strictly below it (a path-component boundary
after the root). -/
def isDescendantPath (root p : String) : Bool :=
  p == root || strStartsWith p (root ++ "/")

/-- A workspace whose member depends on a package rooted at `/wsx` — a
sibling directory of the workspace root `/ws` that shares it as a string
prefix without being a descendant. -/
def ewShared : ElabWorkspace :=
  { ids := [0, 1]
    root := "/ws"
    members := [0]
    pkgRoot := fun n => if n = 0 then "/ws" else "/wsx"
    pkgManifestPath := fun n => if n = 0 then "/ws/Cargo.toml" else "/wsx/Cargo.toml"
    pkgDeps := fun n => if n = 0 then [1] else [] }

/-- C2 counterexample: the source filters with
`pkg_path.starts_with(workspace_path)` — a raw string-prefix test — so the
package rooted at `/wsx`, which is *not* a descendant of the workspace root
`/ws`, still has its manifest path collected.  This refutes the claim that a
manifest is collected if and only if the package root is a descendant of the
workspace root. -/
theorem graphwalker_prefix_counterexample :
    manifest_paths ewShared 5 = .ok ["/ws/Cargo.toml", "/wsx/Cargo.toml"] ∧
    ewShared.pkgRoot 1 = "/wsx" ∧
    isDescendantPath ewShared.root (ewShared.pkgRoot 1) = false ∧
    strStartsWith (ewShared.pkgRoot 1) ewShared.root = true :=
  ⟨rfl, rfl, by decide, by decide⟩

/-- C2 (amended): on a successful run, `manifest_paths` outputs the manifest
paths of a duplicate-free list of package identities containing exactly the
identities reachable (along dependency edges) from some workspace member
whose package-root string *starts with* the workspace-root string (raw
string prefix, not descendant-of-directory); packages failing the prefix
test are still traversed but not collected. -/
theorem graphwalker_characterization (ew : ElabWorkspace) (fuel : Nat)
    (out : List String)
    (hrun : manifest_paths ew fuel = .ok out) :
    ∃ pids : List PackageId,
      out = pids.map ew.pkgManifestPath ∧
      pids.Nodup ∧
      ∀ x, x ∈ pids ↔
        ((∃ m ∈ ew.members, Reaches ew m x) ∧
          strStartsWith (ew.pkgRoot x) ew.root = true) := by
  rw [manifest_paths] at hrun
  cases hwalk : walkList ew fuel ew.members { visited := [], collected := [] } with
  | error e => simp [hwalk] at hrun
  | ok st =>
    simp only [hwalk] at hrun
    injection hrun with hrun
    have hinv : WalkInv ew st :=
      walkList_inv ew fuel ew.members _ st hwalk
        ⟨List.nodup_nil, List.nodup_nil, by simp⟩
    have hclosure := walkList_closure ew fuel ew.members _ st hwalk
    refine ⟨st.collected, hrun.symm, hinv.2.1, ?_⟩
    intro x
    rw [hinv.2.2 x]
    constructor
    · rintro ⟨hvis, hpre⟩
      refine ⟨?_, hpre⟩
      rcases walkList_sound ew fuel ew.members _ st hwalk x hvis with h | h
      · cases h
      · exact h
    · rintro ⟨⟨m, hm, hr⟩, hpre⟩
      refine ⟨?_, hpre⟩
      clear hpre
      induction hr with
      | refl => exact hclosure.1 m hm
      | tail hab hbc ih =>
        rcases hclosure.2 _ ih with h | h
        · cases h
        · exact h _ hbc

theorem graphwalker_characterization_witness :
    ∃ pids : List PackageId,
      ["/ws/Cargo.toml", "/wsx/Cargo.toml"] = pids.map ewShared.pkgManifestPath ∧
      pids.Nodup ∧
      ∀ x, x ∈ pids ↔
        ((∃ m ∈ ewShared.members, Reaches ewShared m x) ∧
          strStartsWith (ewShared.pkgRoot x) ewShared.root = true) :=
  graphwalker_characterization ewShared 5 _ rfl

/-- C5: for every source manifest of the copy loop (a path of the form
`workspaceRoot ++ "/" ++ dir₁/…/dirₖ/Cargo.toml` with separator-free
directory components), the copy loop places the original content at
`destPath`, and the destination's path relative to the sandbox root equals
the original path relative to the workspace root, component for component
(the string-level computation may introduce a doubled separator, which
denotes the same relative path). -/
theorem sandbox_mirror (origDisk : Disk) (tmpRoot wsRoot : String)
    (srcs : List String) (d₀ : Disk) (tmpPaths : List String) (d₁ : Disk)
    (hcopy : copyManifests origDisk tmpRoot wsRoot srcs d₀ = .ok (tmpPaths, d₁))
    (hnd : (srcs.map (destPath tmpRoot wsRoot)).Nodup)
    (fromPath : String) (hmem : fromPath ∈ srcs)
    (dirComps : List (List Char))
    (hcomps : ∀ p ∈ dirComps, p ≠ [] ∧ ('/' : Char) ∉ p)
    (hfrom : fromPath.data =
      wsRoot.data ++ '/' :: joinSep '/' (dirComps ++ ["Cargo.toml".data])) :
    destPath tmpRoot wsRoot fromPath ∈ tmpPaths ∧
    (∃ m, origDisk fromPath = some m ∧
      d₁ (destPath tmpRoot wsRoot fromPath) = some m) ∧
    strComponents (strSlice (destPath tmpRoot wsRoot fromPath) tmpRoot.length) =
      strComponents (strSlice fromPath wsRoot.length) := by
  have hpaths := copyManifests_paths origDisk tmpRoot wsRoot srcs d₀ tmpPaths d₁ hcopy
  refine ⟨?_, ?_, ?_⟩
  · rw [hpaths]
    exact List.mem_map_of_mem _ hmem
  · exact copyManifests_lookup origDisk tmpRoot wsRoot srcs d₀ tmpPaths d₁
      hcopy hnd fromPath hmem
  · obtain ⟨tmpData⟩ := tmpRoot
    obtain ⟨wsData⟩ := wsRoot
    obtain ⟨fpData⟩ := fromPath
    have hfp : fpData = wsData ++ '/' :: joinSep '/' (dirComps ++ ["Cargo.toml".data]) :=
      hfrom
    subst hfp
    rw [show String.length ⟨tmpData⟩ = String.length ⟨tmpData⟩ from rfl]
    rw [strComponents_dest tmpData wsData dirComps hcomps]
    rw [strComponents_src wsData dirComps hcomps]

/-- The manifest copied in the C5 witness. -/
def mirrorManifest : Manifest :=
  { package := [("name", TomlValue.str "a")]
    bin := none
    lib := none
    dependencies := none
    dev_dependencies := none
    build_dependencies := none
    target := none }

/-- The original filesystem of the C5 witness: one manifest at
`/ws/a/Cargo.toml`. -/
def mirrorOrigDisk : Disk :=
  fun q => if q = "/ws/a/Cargo.toml" then some mirrorManifest else none

/-- The sandbox disk after the C5 witness copy. -/
def mirrorDisk₁ : Disk :=
  diskWrite (fun _ => none) "/tmp/x//a/Cargo.toml" mirrorManifest

theorem sandbox_mirror_witness :
    destPath "/tmp/x" "/ws" "/ws/a/Cargo.toml" ∈ ["/tmp/x//a/Cargo.toml"] ∧
    (∃ m, mirrorOrigDisk "/ws/a/Cargo.toml" = some m ∧
      mirrorDisk₁ (destPath "/tmp/x" "/ws" "/ws/a/Cargo.toml") = some m) ∧
    strComponents (strSlice (destPath "/tmp/x" "/ws" "/ws/a/Cargo.toml")
        (String.length "/tmp/x")) =
      strComponents (strSlice "/ws/a/Cargo.toml" (String.length "/ws")) :=
  sandbox_mirror mirrorOrigDisk "/tmp/x" "/ws" ["/ws/a/Cargo.toml"] (fun _ => none)
    ["/tmp/x//a/Cargo.toml"] mirrorDisk₁ rfl (by decide) "/ws/a/Cargo.toml"
    (List.mem_cons_self _ _) [['a']] (by decide) (by decide)

/-- C4: in one inspection run — `from_workspace` (which copies the
manifests and applies the stub-target + path-absolutization pass, writing
the results to the sandbox disk) followed by `write_manifest_latest` (which
re-reads those files) — every sandbox manifest's final content is the widen
transform applied to the semver-pass output (the already-path-rewritten
serialized manifest), not to the pristine copy. -/
theorem pass_ordering
    (fenv : FsEnv) (cenv : CargoEnv) (origDisk : Disk)
    (origPaths : List String) (wsRoot tmpRoot origManifest : String)
    (tp : TempProjectM) (d₂ : Disk) (tp₁ : TempProjectM) (d₃ : Disk)
    (hfw : from_workspace fenv origDisk origPaths wsRoot tmpRoot origManifest =
      .ok (tp, d₂))
    (hnd : tp.manifest_paths.Nodup)
    (hlatest : write_manifest_latest cenv tp d₂ = .ok (tp₁, d₃)) :
    ∀ p ∈ tp.manifest_paths, ∃ src m₀ m₁ m₂,
      src ∈ origPaths ∧ p = destPath tmpRoot wsRoot src ∧
      origDisk src = some m₀ ∧
      semverManifestTransform fenv wsRoot tmpRoot p m₀ = .ok m₁ ∧
      d₂ p = some m₁ ∧
      latestManifestTransform m₁ = .ok m₂ ∧
      d₃ p = some m₂ := by
  rw [from_workspace] at hfw
  cases hcopy : copyManifests origDisk tmpRoot wsRoot origPaths (fun _ => none) with
  | error e => simp [hcopy] at hfw
  | ok pr =>
    obtain ⟨tmpPaths, dA⟩ := pr
    simp only [hcopy] at hfw
    cases hsem : write_manifest_semver_with_paths fenv tmpPaths wsRoot tmpRoot dA with
    | error e => simp [hsem] at hfw
    | ok dB =>
      simp only [hsem] at hfw
      injection hfw with hfw
      have htp : ({ workspace := none
                    tempDirPath := tmpRoot
                    manifest_paths := tmpPaths
                    relative_manifest := strSlice origManifest wsRoot.length } :
          TempProjectM) = tp := congrArg Prod.fst hfw
      have hdB : dB = d₂ := congrArg Prod.snd hfw
      have hmp : tp.manifest_paths = tmpPaths := by rw [← htp]
      rw [hdB] at hsem
      rw [write_manifest_latest, hmp] at hlatest
      cases hld : write_manifest_latest_disk tmpPaths d₂ with
      | error e => simp [hld] at hlatest
      | ok dC =>
        simp only [hld] at hlatest
        cases hwn : cenv.workspaceNew (tp.tempDirPath ++ "/" ++ tp.relative_manifest) with
        | error e => simp [hwn] at hlatest
        | ok ws =>
          simp only [hwn] at hlatest
          injection hlatest with hlatest
          have hdC : dC = d₃ := congrArg Prod.snd hlatest
          have hndTmp : tmpPaths.Nodup := hmp ▸ hnd
          have hpathsEq : tmpPaths = origPaths.map (destPath tmpRoot wsRoot) :=
            copyManifests_paths origDisk tmpRoot wsRoot origPaths _ tmpPaths dA hcopy
          have hndDest : (origPaths.map (destPath tmpRoot wsRoot)).Nodup :=
            hpathsEq ▸ hndTmp
          intro p hp
          rw [hmp] at hp
          obtain ⟨src, hsrc, hpd⟩ := List.mem_map.mp (hpathsEq ▸ hp)
          obtain ⟨m₀, hm₀, hdA₀⟩ :=
            copyManifests_lookup origDisk tmpRoot wsRoot origPaths _ tmpPaths dA
              hcopy hndDest src hsrc
          rw [write_manifest_semver_with_paths] at hsem
          obtain ⟨mA, m₁, hdA₁, hgsem, hd₂p⟩ :=
            rewriteManifestFiles_lookup _ tmpPaths dA d₂ hsem hndTmp p hp
          rw [write_manifest_latest_disk] at hld
          obtain ⟨mB, m₂, hd₂q, hglat, hdCp⟩ :=
            rewriteManifestFiles_lookup _ tmpPaths d₂ dC hld hndTmp p hp
          have hmA : mA = m₀ := by
            rw [hpd] at hdA₀
            injection (hdA₀.symm.trans hdA₁) with h
            exact h.symm
          have hmB : mB = m₁ := by
            injection (hd₂p.symm.trans hd₂q) with h
            exact h.symm
          refine ⟨src, m₀, m₁, m₂, hsrc, hpd.symm, hm₀, ?_, hd₂p, ?_, hdC ▸ hdCp⟩
          · rw [← hmA]; exact hgsem
          · rw [← hmB]; exact hglat

/-- The semver-pass output of the C4/C9 witness manifest: the stub `[[bin]]`
target injected, everything else untouched (no dependencies to rewrite). -/
def c4SemverManifest : Manifest :=
  { mirrorManifest with bin := some [stubBin] }

/-- The `TempProject` state produced by the witness `from_workspace` run. -/
def c4tp : TempProjectM :=
  { workspace := none
    tempDirPath := "/tmp/x"
    manifest_paths := ["/tmp/x//a/Cargo.toml"]
    relative_manifest := "/a/Cargo.toml" }

/-- A cargo environment whose `Workspace::new` always succeeds. -/
def c4CargoEnv : CargoEnv :=
  { workspaceNew := fun p => .ok { rootManifest := p }
    updateLockfile := fun _ => .ok () }

/-- The sandbox disk after the witness `from_workspace` run. -/
def c4d₂ : Disk :=
  diskWrite (diskWrite (fun _ => none) "/tmp/x//a/Cargo.toml" mirrorManifest)
    "/tmp/x//a/Cargo.toml" c4SemverManifest

/-- The project state after the witness `write_manifest_latest` run. -/
def c4tp₁ : TempProjectM :=
  { c4tp with workspace := some { rootManifest := "/tmp/x//a/Cargo.toml" } }

/-- The sandbox disk after the witness `write_manifest_latest` run. -/
def c4d₃ : Disk :=
  diskWrite c4d₂ "/tmp/x//a/Cargo.toml" c4SemverManifest

theorem pass_ordering_witness :
    ∃ src m₀ m₁ m₂,
      src ∈ ["/ws/a/Cargo.toml"] ∧
      "/tmp/x//a/Cargo.toml" = destPath "/tmp/x" "/ws" src ∧
      mirrorOrigDisk src = some m₀ ∧
      semverManifestTransform rpwaEnvW "/ws" "/tmp/x" "/tmp/x//a/Cargo.toml" m₀ =
        .ok m₁ ∧
      c4d₂ "/tmp/x//a/Cargo.toml" = some m₁ ∧
      latestManifestTransform m₁ = .ok m₂ ∧
      c4d₃ "/tmp/x//a/Cargo.toml" = some m₂ :=
  pass_ordering rpwaEnvW c4CargoEnv mirrorOrigDisk ["/ws/a/Cargo.toml"]
    "/ws" "/tmp/x" "/ws/a/Cargo.toml" c4tp c4d₂ c4tp₁ c4d₃ rfl (by decide) rfl
    "/tmp/x//a/Cargo.toml" (by decide)

/-- C9: `cargo_update` unwraps the shared workspace slot: on a state whose
slot is empty it panics instead of returning an error value; after a
successful `write_manifest_semver` or `write_manifest_latest` (which store a
fresh `Workspace` into the slot) the panic branch is unreachable, and
`from_workspace` itself always returns a state with an empty slot. -/
theorem cargo_update_slot (cenv : CargoEnv) (tp : TempProjectM) :
    (tp.workspace = none →
      cargo_update cenv tp = .panic "called `Option::unwrap()` on a `None` value") ∧
    (∀ tp₁, write_manifest_semver cenv tp = .ok tp₁ →
      ∃ r, cargo_update cenv tp₁ = .value r) ∧
    (∀ tp₂ d d₁, write_manifest_latest cenv tp d = .ok (tp₂, d₁) →
      ∃ r, cargo_update cenv tp₂ = .value r) ∧
    (∀ fenv origDisk origPaths wsRoot tmpRoot origManifest d,
      from_workspace fenv origDisk origPaths wsRoot tmpRoot origManifest =
        .ok (tp, d) →
      tp.workspace = none) := by
  refine ⟨?_, ?_, ?_, ?_⟩
  · intro h
    rw [cargo_update, h]
  · intro tp₁ h
    rw [write_manifest_semver] at h
    cases hwn : cenv.workspaceNew (tp.tempDirPath ++ "/" ++ tp.relative_manifest) with
    | error e => simp [hwn] at h
    | ok ws =>
      simp only [hwn] at h
      injection h with h
      cases h
      exact ⟨cenv.updateLockfile ws, rfl⟩
  · intro tp₂ d d₁ h
    rw [write_manifest_latest] at h
    cases hld : write_manifest_latest_disk tp.manifest_paths d with
    | error e => simp [hld] at h
    | ok d₀ =>
      simp only [hld] at h
      cases hwn : cenv.workspaceNew (tp.tempDirPath ++ "/" ++ tp.relative_manifest) with
      | error e => simp [hwn] at h
      | ok ws =>
        simp only [hwn] at h
        injection h with h
        cases h
        exact ⟨cenv.updateLockfile ws, rfl⟩
  · intro fenv origDisk origPaths wsRoot tmpRoot origManifest d h
    rw [from_workspace] at h
    cases hcopy : copyManifests origDisk tmpRoot wsRoot origPaths (fun _ => none) with
    | error e => simp [hcopy] at h
    | ok pr =>
      obtain ⟨tmpPaths, dA⟩ := pr
      simp only [hcopy] at h
      cases hsem : write_manifest_semver_with_paths fenv tmpPaths wsRoot tmpRoot dA with
      | error e => simp [hsem] at h
      | ok dB =>
        simp only [hsem] at h
        injection h with h
        cases h
        rfl

theorem cargo_update_slot_witness :
    cargo_update c4CargoEnv c4tp =
      .panic "called `Option::unwrap()` on a `None` value" ∧
    (∃ r, cargo_update c4CargoEnv c4tp₁ = .value r) ∧
    c4tp.workspace = none :=
  ⟨(cargo_update_slot c4CargoEnv c4tp).1 rfl,
   (cargo_update_slot c4CargoEnv c4tp).2.1 c4tp₁ rfl,
   (cargo_update_slot c4CargoEnv c4tp).2.2.2 rpwaEnvW mirrorOrigDisk
     ["/ws/a/Cargo.toml"] "/ws" "/tmp/x" "/ws/a/Cargo.toml" c4d₂ rfl⟩

end CargoOutdated
